import Mathlib

/-!
Verification of the `geometry` package of the gomlx/gnn repository: a KD-tree
spatial index (`kdtree.go`), a radius-neighbour query (`radiusedges.go`) and a
nearest-neighbour query (`nearestedges.go`).

Shallow embedding conventions:
* Coordinates (`float32`/`float64` in Go) are embedded as exact rationals `ℚ`.
  Every arithmetic operation the algorithms perform on coordinates is ring
  arithmetic and order comparison, which `ℚ` models exactly.
* A flat row-major buffer `[]T` of `N·D` values is embedded as the flat
  `List ℚ` where needed (input validation) and as its row-major chunking
  `List Pt` (one entry per point) inside the algorithms; the Go slice
  `Points[i*D:(i+1)*D]` corresponds to entry `i` of the chunked list.
* The in-place permutation done by `buildNode` only ever touches the positions
  `[start*D, end*D)` owned by the node being built, so it is embedded by
  passing the owned segment (point paired with its entry of `Order`) in and
  out of `buildNode`.
* Go `int` values that can be negative at validation sites are embedded as
  `ℤ`; sizes and indices that are known non-negative are `ℕ`.
* Fallible operations return `Except GeomError`; a Go panic (out-of-range
  index) is embedded as `none` of an `Option`.
* Go loops over `axis < dimension` indexing several equal-length slices are
  embedded as structural recursion over the corresponding lists.
-/

/-- A point: the `D` coordinates of one row of a row-major point buffer. -/
abbrev Pt := List ℚ

/-- Error kinds of the `geometry` package, using the specification's
vocabulary for the `errors.Errorf` sites of the Go code. -/
inductive GeomError where
  | invalidArgument
  | dimensionMismatch
  | dTypeMismatch
  | emptyInput
  | noEdgesFound
deriving DecidableEq

/-- Go `l2Dist2` (radiusedges.go): sum over the coordinates of the squared
differences.  The Go loop ranges over `a` indexing `b`; call sites always pass
equal-length slices, which `zipWith` models exactly. -/
def l2Dist2 (a b : Pt) : ℚ :=
  (List.zipWith (fun x y => (x - y) * (x - y)) a b).sum

/-- Row-major chunking of a flat coordinate buffer into its points: chunk `i`
is the slice `l[i*D : i*D + D]`, one chunk per started group of `D` values. -/
def chunkPoints (D : ℕ) (l : List ℚ) : List Pt :=
  (List.range ((l.length + D - 1) / D)).map (fun i => (l.drop (i * D)).take D)

/-- Go `calculateBoundingBox` (kdtree.go): coordinate-wise min and max of a
set of points, initialised from the first point.  The Go per-axis update
`if v < min[d] then min[d] = v` is the coordinate-wise `min`, and
symmetrically for `max`. -/
def calculateBoundingBox (D : ℕ) (pts : List Pt) : Pt × Pt :=
  match pts with
  | [] => (List.replicate D 0, List.replicate D 0)
  | p :: rest =>
      rest.foldl (fun acc q => (List.zipWith min acc.1 q, List.zipWith max acc.2 q))
        (p.take D, p.take D)

/-- Split-axis selection of Go `buildNode` (kdtree.go, step 1): fold over the
axes keeping the first axis whose range strictly exceeds the best so far,
starting from `splitAxis = -1`, `maxRange = -1`. -/
def chooseSplitAxis (minCoords maxCoords : Pt) (D : ℕ) : ℤ × ℚ :=
  (List.range D).foldl
    (fun best axis =>
      let r := maxCoords.getD axis 0 - minCoords.getD axis 0
      if best.2 < r then ((axis : ℤ), r) else best)
    (-1, -1)

/-- Sort key used by `buildNode`: the `ax` coordinate of a (point, original
index) pair. -/
def ptKey (ax : ℕ) (p : Pt × ℕ) : ℚ := p.1.getD ax 0

/-- The duplicate-split-value scan of Go `buildNode` (kdtree.go, lines
214-216): starting from the median offset, decrement while the previous
entry's `ax` coordinate is `≥ splitValue`. -/
def scanBack (l : List (Pt × ℕ)) (ax : ℕ) (v : ℚ) : ℕ → ℕ
  | 0 => 0
  | m + 1 => if v ≤ ptKey ax (l.getD m ([], 0)) then scanBack l ax v m else m + 1

theorem scanBack_le (l : List (Pt × ℕ)) (ax : ℕ) (v : ℚ) (m : ℕ) :
    scanBack l ax v m ≤ m := by
  induction m with
  | zero => simp [scanBack]
  | succ k ih =>
      unfold scanBack
      split
      · exact le_trans ih (Nat.le_succ k)
      · exact le_refl _

/-- Go `KDTreeNode` (kdtree.go).  `buildNode` either creates a leaf (no
children) or sets both children, so the embedded node is a leaf or has
exactly two children; `SplitAxis`/`SplitValue` are only meaningful (and only
stored) for internal nodes. -/
inductive KDNode where
  | leaf (minC maxC : Pt) (startIdx endIdx : ℕ)
  | node (minC maxC : Pt) (startIdx endIdx : ℕ)
      (splitAxis : ℕ) (splitValue : ℚ) (left right : KDNode)

def KDNode.startIdx : KDNode → ℕ
  | .leaf _ _ s _ => s
  | .node _ _ s _ _ _ _ _ => s

def KDNode.endIdx : KDNode → ℕ
  | .leaf _ _ _ e => e
  | .node _ _ _ e _ _ _ _ => e

def KDNode.minC : KDNode → Pt
  | .leaf mn _ _ _ => mn
  | .node mn _ _ _ _ _ _ _ => mn

def KDNode.maxC : KDNode → Pt
  | .leaf _ mx _ _ => mx
  | .node _ mx _ _ _ _ _ _ => mx

/-- Go `buildNode` (kdtree.go).  The node being built owns exactly the range
`[start, start+seg.length)` of the tree's `Points`/`Order`; the Go in-place
reordering of that range is embedded by passing the owned segment (each point
paired with its `Order` entry) in and returning the reordered segment.
`sort.Slice` with the strict coordinate comparator is modelled by
`insertionSort` on the non-strict key order (Go specifies only that the
result is sorted by the comparator; the order among ties is unspecified). -/
def buildNode (D minLeaf start : ℕ) (seg : List (Pt × ℕ)) : List (Pt × ℕ) × KDNode :=
  let n := seg.length
  let bb := calculateBoundingBox D (seg.map Prod.fst)
  if hn : n ≤ minLeaf then (seg, KDNode.leaf bb.1 bb.2 start (start + n))
  else
    let ar := chooseSplitAxis bb.1 bb.2 D
    if ar.2 = 0 then (seg, KDNode.leaf bb.1 bb.2 start (start + n))
    else
      let ax := ar.1.toNat
      let sorted := List.insertionSort (fun p q => ptKey ax p ≤ ptKey ax q) seg
      let v := ptKey ax (sorted.getD (n / 2) ([], 0))
      let m := scanBack sorted ax v (n / 2)
      if hm : m = 0 then (sorted, KDNode.leaf bb.1 bb.2 start (start + n))
      else
        let lres := buildNode D minLeaf start (sorted.take m)
        let rres := buildNode D minLeaf (start + m) (sorted.drop m)
        (lres.1 ++ rres.1, KDNode.node bb.1 bb.2 start (start + n) ax v lres.2 rres.2)
termination_by seg.length
decreasing_by
  · show (List.take m sorted).length < seg.length
    have hlen : sorted.length = seg.length := List.length_insertionSort _ seg
    have hm2 : m ≤ n / 2 := scanBack_le sorted ax v (n / 2)
    have hn' : n = seg.length := rfl
    simp only [List.length_take, hlen]
    omega
  · show (List.drop m sorted).length < seg.length
    have hlen : sorted.length = seg.length := List.length_insertionSort _ seg
    have hn' : n = seg.length := rfl
    simp only [List.length_drop, hlen]
    omega

/-- Go `KDTree` (kdtree.go): the reordered points, their count and dimension,
the permutation `Order` back to original input positions, and the root. -/
structure KDTree where
  points : List Pt
  numPoints : ℕ
  dimension : ℕ
  order : List ℕ
  root : KDNode

/-- Go `NewKDTree` (kdtree.go).  The first component of the result is the
caller-supplied buffer as observable after the call: the code clones the
input (`slices.Clone`) and every later write targets the clone
(`tree.Points`/`tree.Order`), so the embedding threads the caller's buffer
through unchanged.  `dimension` and `minPointsPerLeaf` are Go `int`s and may
be negative, hence `ℤ`.  The `numPoints == 0` branch of the Go code (dead
after validation) returns the tree with a nil root, embedded as an empty
leaf. -/
def NewKDTree (pointsData : List ℚ) (dimension minPointsPerLeaf : ℤ) :
    List ℚ × Except GeomError KDTree :=
  (pointsData,
    if pointsData.length = 0 then Except.error GeomError.invalidArgument
    else if dimension ≤ 0 then Except.error GeomError.invalidArgument
    else if (pointsData.length : ℤ) % dimension ≠ 0 then Except.error GeomError.invalidArgument
    else if minPointsPerLeaf < 1 then Except.error GeomError.invalidArgument
    else
      let D := dimension.toNat
      let numPoints := pointsData.length / D
      if numPoints = 0 then
        Except.ok ⟨[], 0, D, [], KDNode.leaf [] [] 0 0⟩
      else
        let seg0 := (chunkPoints D pointsData).zip (List.range numPoints)
        let res := buildNode D minPointsPerLeaf.toNat 0 seg0
        Except.ok ⟨res.1.map Prod.fst, numPoints, D, res.1.map Prod.snd, res.2⟩)

/-- Go `radiusIntersectWithBoundingBox` (radiusedges.go): the clamping loop,
with the early exits taken when a single axis gap already exceeds `radius`.
`none` is the early `return false`; `some c` is the computed
`closestPoint`. -/
def closestInBox : Pt → Pt → Pt → ℚ → Option Pt
  | p :: ps, bMax :: bMaxs, bMin :: bMins, radius =>
      if p < bMin then
        if radius < bMin - p then none
        else (closestInBox ps bMaxs bMins radius).map (fun c => bMin :: c)
      else if bMax < p then
        if radius < p - bMax then none
        else (closestInBox ps bMaxs bMins radius).map (fun c => bMax :: c)
      else (closestInBox ps bMaxs bMins radius).map (fun c => p :: c)
  | _, _, _, _ => some []

/-- Go `radiusIntersectWithBoundingBox` (radiusedges.go): true iff no axis
gap exceeds `radius` and the clamped closest point of the box is within
`radius2` of `point`. -/
def radiusIntersectWithBoundingBox (point boundaryMax boundaryMin : Pt)
    (radius radius2 : ℚ) : Bool :=
  match closestInBox point boundaryMax boundaryMin radius with
  | none => false
  | some closestPoint => decide (l2Dist2 point closestPoint ≤ radius2)

/-- Go `radiusEdgesRecursiveImpl` (radiusedges.go).  The working target set
is the list of (target point, target index) pairs (the Go code keeps these
as two parallel slices, appended to in lockstep); emitted edges are
(source original index, target index) pairs for the same reason.  The Go
branch that keeps the unfiltered slices when nothing was dropped is
semantically the filtered set and is embedded as such.  The `kd` tree is
threaded through to make the query's effect on it explicit (the Go code
only reads it). -/
def radiusEdgesRecursiveImpl (kd : KDTree) (kdNode : KDNode) (target : List (Pt × ℕ))
    (radius radius2 : ℚ) (edges : List (ℕ × ℕ)) : KDTree × List (ℕ × ℕ) :=
  let remaining := target.filter
    (fun tp => radiusIntersectWithBoundingBox tp.1 kdNode.maxC kdNode.minC radius radius2)
  if remaining.isEmpty then (kd, edges)
  else
    match kdNode with
    | KDNode.leaf _ _ s e =>
        (kd, edges ++ (List.range' s (e - s)).flatMap (fun i =>
          remaining.filterMap (fun tp =>
            if l2Dist2 (kd.points.getD i []) tp.1 ≤ radius2 then
              some (kd.order.getD i 0, tp.2)
            else none)))
    | KDNode.node _ _ _ _ _ _ l r =>
        let lres := radiusEdgesRecursiveImpl kd l remaining radius radius2 edges
        radiusEdgesRecursiveImpl lres.1 r remaining radius radius2 lres.2

/-- Go `radiusEdgesImpl` (radiusedges.go): build a KD-tree over the source
points with `minPointsPerLeaf = 16`, pair every target point with its index,
and run the recursive query from the root with `radius2 = radius · radius`. -/
def radiusEdgesImpl (source target : List ℚ) (dimension : ℕ) (radius : ℚ) :
    Except GeomError (List (ℕ × ℕ)) :=
  match (NewKDTree source (dimension : ℤ) 16).2 with
  | Except.error e => Except.error e
  | Except.ok kd =>
      let targetIndices := List.range (target.length / dimension)
      let tw := (chunkPoints dimension target).zip targetIndices
      Except.ok (radiusEdgesRecursiveImpl kd kd.root tw radius (radius * radius) []).2

/-- Go `RadiusEdgesConfig.Done` (radiusedges.go).  The two tensors are
embedded as flat buffers plus their second shape dimension (both are rank 2
by the embedding; the single coordinate type `ℚ` plays both float roles, so
the dtype-mismatch exit cannot fire).  An empty edge list is reported as
`noEdgesFound`, never as a success. -/
def RadiusEdgesDone (source : List ℚ) (sourceDim : ℕ) (target : List ℚ) (targetDim : ℕ)
    (radius : ℚ) : Except GeomError (List (ℕ × ℕ)) :=
  if sourceDim ≠ targetDim then Except.error GeomError.dimensionMismatch
  else
    match radiusEdgesImpl source target sourceDim radius with
    | Except.error e => Except.error e
    | Except.ok edges =>
        if edges.length = 0 then Except.error GeomError.noEdgesFound
        else Except.ok edges

/-- Leaf brute-force scan of Go `findNearestRecursive` (nearestedges.go):
visit the leaf's range in ascending position order, updating the best match
on a strictly smaller squared distance. -/
def leafScan (kd : KDTree) (point : Pt) (s e : ℕ) (best : ℤ × ℚ) : ℤ × ℚ :=
  (List.range' s (e - s)).foldl
    (fun b i =>
      let d2 := l2Dist2 point (kd.points.getD i [])
      if d2 < b.2 then ((i : ℤ), d2) else b)
    best

/-- Go `findNearestRecursive` (nearestedges.go).  The mutable `best`
accumulator is threaded explicitly; the `kd` tree is threaded through to
make the query's effect on it explicit (the Go code only reads it).  The
near child (the one whose half-space contains the query point) is visited
first; the far child only when the squared distance to the splitting plane
is below the current best. -/
def findNearestRecursive (kd : KDTree) (node : KDNode) (point : Pt) (best : ℤ × ℚ) :
    KDTree × (ℤ × ℚ) :=
  match node with
  | KDNode.leaf _ _ s e => (kd, leafScan kd point s e best)
  | KDNode.node _ _ _ _ ax v l r =>
      if point.getD ax 0 < v then
        let p1 := findNearestRecursive kd l point best
        let distToSplit := point.getD ax 0 - v
        if distToSplit * distToSplit < p1.2.2 then findNearestRecursive p1.1 r point p1.2
        else p1
      else
        let p1 := findNearestRecursive kd r point best
        let distToSplit := point.getD ax 0 - v
        if distToSplit * distToSplit < p1.2.2 then findNearestRecursive p1.1 l point p1.2
        else p1

/-- Go `findNearest` (nearestedges.go): run the recursion from the root with
best match `(-1, maxValue)` and translate the best index through `Order`.
The Go code indexes `kd.Order[best.index]` unconditionally; an out-of-range
index (notably the initial `-1`) panics, embedded as `none`. -/
def findNearest (kd : KDTree) (point : Pt) (maxValue : ℚ) : KDTree × Option ℕ :=
  let res := findNearestRecursive kd kd.root point (-1, maxValue)
  (res.1,
    if res.2.1 < 0 ∨ (res.1.order.length : ℤ) ≤ res.2.1 then none
    else some (res.1.order.getD res.2.1.toNat 0))

/-- Go `nearestEdgesImpl` (nearestedges.go): build a KD-tree over the target
points with `minPointsPerLeaf = 16` and find, for each source point in input
order, the nearest target.  Each output edge is (source index, found target
original index); the `Option` records the per-point panic of `findNearest`. -/
def nearestEdgesImpl (source target : List ℚ) (dimension : ℕ) (maxValue : ℚ) :
    Except GeomError (List (ℕ × Option ℕ)) :=
  match (NewKDTree target (dimension : ℤ) 16).2 with
  | Except.error e => Except.error e
  | Except.ok kd =>
      let numSourcePoints := source.length / dimension
      Except.ok ((List.range numSourcePoints).map (fun i =>
        (i, (findNearest kd ((source.drop (i * dimension)).take dimension) maxValue).2)))

/-- The exact value of Go `math.MaxFloat64`, the initial best squared
distance that `NearestEdgesConfig.Done` passes to `nearestEdgesImpl` for
`float64` data. -/
def maxFloat64 : ℚ := 2 ^ 1024 - 2 ^ 971

/-! ### Axis-aligned boxes and distance facts -/

/-- Coordinate-wise box membership: `inBox mn mx x` states that the three
lists have equal length and `mn ≤ x ≤ mx` on every axis. -/
def inBox : Pt → Pt → Pt → Prop
  | mnh :: mnt, mxh :: mxt, xh :: xt => mnh ≤ xh ∧ xh ≤ mxh ∧ inBox mnt mxt xt
  | [], [], [] => True
  | _, _, _ => False

theorem l2Dist2_nil_left (b : Pt) : l2Dist2 [] b = 0 := rfl

theorem l2Dist2_nil_right (a : Pt) : l2Dist2 a [] = 0 := by
  cases a <;> rfl

theorem l2Dist2_cons (x y : ℚ) (xs ys : Pt) :
    l2Dist2 (x :: xs) (y :: ys) = (x - y) * (x - y) + l2Dist2 xs ys := by
  simp [l2Dist2]

theorem l2Dist2_nonneg (a b : Pt) : 0 ≤ l2Dist2 a b := by
  induction a generalizing b with
  | nil => simp [l2Dist2_nil_left]
  | cons x xs ih =>
      cases b with
      | nil => simp [l2Dist2_nil_right]
      | cons y ys =>
          rw [l2Dist2_cons]
          have := ih ys
          nlinarith [mul_self_nonneg (x - y)]

theorem l2Dist2_axis_le (a b : Pt) (h : a.length = b.length) (d : ℕ) :
    (a.getD d 0 - b.getD d 0) * (a.getD d 0 - b.getD d 0) ≤ l2Dist2 a b := by
  induction a generalizing b d with
  | nil =>
      cases b with
      | nil => simp [l2Dist2_nil_left]
      | cons y ys => simp at h
  | cons x xs ih =>
      cases b with
      | nil => simp at h
      | cons y ys =>
          rw [l2Dist2_cons]
          cases d with
          | zero =>
              simp only [List.getD_cons_zero]
              have := l2Dist2_nonneg xs ys
              linarith
          | succ k =>
              simp only [List.getD_cons_succ]
              have hlen : xs.length = ys.length := by simpa using h
              have := ih ys hlen k
              nlinarith [mul_self_nonneg (x - y)]

theorem inBox_nil : inBox [] [] [] := trivial

theorem inBox_cons {mnh mxh xh : ℚ} {mnt mxt xt : Pt} :
    inBox (mnh :: mnt) (mxh :: mxt) (xh :: xt) ↔
      mnh ≤ xh ∧ xh ≤ mxh ∧ inBox mnt mxt xt := Iff.rfl

theorem inBox.length_left {mn mx x : Pt} (h : inBox mn mx x) : mn.length = x.length := by
  induction mn generalizing mx x with
  | nil => cases mx <;> cases x <;> first | rfl | exact absurd h (by simp [inBox])
  | cons a as ih =>
      cases mx with
      | nil => exact absurd h (by simp [inBox])
      | cons b bs =>
          cases x with
          | nil => exact absurd h (by simp [inBox])
          | cons c cs =>
              rw [inBox_cons] at h
              simpa using ih h.2.2

theorem inBox.length_right {mn mx x : Pt} (h : inBox mn mx x) : mx.length = x.length := by
  induction mn generalizing mx x with
  | nil => cases mx <;> cases x <;> first | rfl | exact absurd h (by simp [inBox])
  | cons a as ih =>
      cases mx with
      | nil => exact absurd h (by simp [inBox])
      | cons b bs =>
          cases x with
          | nil => exact absurd h (by simp [inBox])
          | cons c cs =>
              rw [inBox_cons] at h
              simpa using ih h.2.2

theorem inBox_self (p : Pt) : inBox p p p := by
  induction p with
  | nil => exact inBox_nil
  | cons x xs ih => exact ⟨le_refl x, le_refl x, ih⟩

/-! ### Chunking lemmas -/

theorem chunkPoints_count (D : ℕ) (l : List ℚ) (hD : D ≠ 0) (hdvd : D ∣ l.length) :
    (l.length + D - 1) / D = l.length / D := by
  rcases hdvd with ⟨k, hk⟩
  have hD0 : 0 < D := Nat.pos_of_ne_zero hD
  have h1 : l.length + D - 1 = (D - 1) + D * k := by
    rw [hk]
    omega
  have h2 : ((D - 1) + D * k) / D = (D - 1) / D + k := Nat.add_mul_div_left _ _ hD0
  have h3 : (D - 1) / D = 0 := Nat.div_eq_of_lt (by omega)
  have h4 : l.length / D = k := by
    rw [hk, Nat.mul_div_cancel_left _ hD0]
  rw [h1, h2, h3, h4]
  omega

theorem chunkPoints_length (D : ℕ) (l : List ℚ) (hD : D ≠ 0) (hdvd : D ∣ l.length) :
    (chunkPoints D l).length = l.length / D := by
  simp only [chunkPoints, List.length_map, List.length_range]
  exact chunkPoints_count D l hD hdvd

theorem chunkPoints_mem_length (D : ℕ) (l : List ℚ) (hD : D ≠ 0) (hdvd : D ∣ l.length) :
    ∀ p ∈ chunkPoints D l, p.length = D := by
  intro p hp
  rw [chunkPoints] at hp
  rcases List.mem_map.mp hp with ⟨i, hi, rfl⟩
  rw [List.mem_range, chunkPoints_count D l hD hdvd] at hi
  have hD0 : 0 < D := Nat.pos_of_ne_zero hD
  have hmul : (i + 1) * D ≤ l.length := by
    have h1 : i + 1 ≤ l.length / D := by omega
    calc (i + 1) * D ≤ (l.length / D) * D := Nat.mul_le_mul_right D h1
      _ ≤ l.length := Nat.div_mul_le_self _ _
  have : (i + 1) * D = i * D + D := by ring
  simp only [List.length_take, List.length_drop]
  omega

/-! ### Bounding box correctness -/

theorem inBox_merge {a b c d x : Pt} (hb : b.length = a.length) (hd : d.length = c.length)
    (h : inBox a c x) : inBox (List.zipWith min a b) (List.zipWith max c d) x := by
  induction a generalizing b c d x with
  | nil =>
      cases c with
      | nil =>
          cases x with
          | nil =>
              have hb0 : b = [] := List.eq_nil_of_length_eq_zero (by simpa using hb)
              have hd0 : d = [] := List.eq_nil_of_length_eq_zero (by simpa using hd)
              subst hb0; subst hd0
              exact inBox_nil
          | cons _ _ => exact absurd h (by simp [inBox])
      | cons _ _ =>
          cases x <;> exact absurd h (by simp [inBox])
  | cons a0 as ih =>
      cases c with
      | nil => cases x <;> exact absurd h (by simp [inBox])
      | cons c0 cs =>
          cases x with
          | nil => exact absurd h (by simp [inBox])
          | cons x0 xs =>
              cases b with
              | nil => simp at hb
              | cons b0 bs =>
                  cases d with
                  | nil => simp at hd
                  | cons d0 ds =>
                      rw [inBox_cons] at h
                      refine ⟨le_trans (min_le_left a0 b0) h.1,
                        le_trans h.2.1 (le_max_left c0 d0), ?_⟩
                      exact ih (by simpa using hb) (by simpa using hd) h.2.2

theorem inBox_merge_self {a c q : Pt} (ha : a.length = q.length) (hc : c.length = q.length) :
    inBox (List.zipWith min a q) (List.zipWith max c q) q := by
  induction q generalizing a c with
  | nil =>
      have ha0 : a = [] := List.eq_nil_of_length_eq_zero (by simpa using ha)
      have hc0 : c = [] := List.eq_nil_of_length_eq_zero (by simpa using hc)
      subst ha0; subst hc0
      exact inBox_nil
  | cons q0 qs ih =>
      cases a with
      | nil => simp at ha
      | cons a0 as =>
          cases c with
          | nil => simp at hc
          | cons c0 cs =>
              exact ⟨min_le_right a0 q0, le_max_right c0 q0,
                ih (by simpa using ha) (by simpa using hc)⟩

theorem bbFold_spec (rest : List Pt) :
    ∀ (acc : Pt × Pt) (D : ℕ), acc.1.length = D → acc.2.length = D →
    (∀ q ∈ rest, q.length = D) →
    (∀ x, inBox acc.1 acc.2 x →
      inBox (rest.foldl (fun acc q => (List.zipWith min acc.1 q, List.zipWith max acc.2 q)) acc).1
        (rest.foldl (fun acc q => (List.zipWith min acc.1 q, List.zipWith max acc.2 q)) acc).2 x) ∧
    (∀ q ∈ rest,
      inBox (rest.foldl (fun acc q => (List.zipWith min acc.1 q, List.zipWith max acc.2 q)) acc).1
        (rest.foldl (fun acc q => (List.zipWith min acc.1 q, List.zipWith max acc.2 q)) acc).2 q) := by
  induction rest with
  | nil => exact fun acc D h1 h2 h3 => ⟨fun x hx => hx, by simp⟩
  | cons q0 qs ih =>
      intro acc D h1 h2 h3
      have hq0 : q0.length = D := h3 q0 (by simp)
      have hacc1 : (List.zipWith min acc.1 q0).length = D := by
        simp [List.length_zipWith, h1, hq0]
      have hacc2 : (List.zipWith max acc.2 q0).length = D := by
        simp [List.length_zipWith, h2, hq0]
      have h3' : ∀ q ∈ qs, q.length = D := fun q hq => h3 q (by simp [hq])
      have ihs := ih (List.zipWith min acc.1 q0, List.zipWith max acc.2 q0) D hacc1 hacc2 h3'
      constructor
      · intro x hx
        simp only [List.foldl_cons]
        exact ihs.1 x (inBox_merge (by omega) (by omega) hx)
      · intro q hq
        simp only [List.foldl_cons]
        rcases List.mem_cons.mp hq with rfl | hq'
        · exact ihs.1 q (inBox_merge_self (by omega) (by omega))
        · exact ihs.2 q hq'

theorem calculateBoundingBox_spec (D : ℕ) (pts : List Pt) (hl : ∀ p ∈ pts, p.length = D) :
    ∀ p ∈ pts, inBox (calculateBoundingBox D pts).1 (calculateBoundingBox D pts).2 p := by
  cases pts with
  | nil => simp
  | cons p0 rest =>
      intro p hp
      have hp0 : p0.length = D := hl p0 (by simp)
      have htake : p0.take D = p0 := List.take_of_length_le (by omega)
      have hrest : ∀ q ∈ rest, q.length = D := fun q hq => hl q (by simp [hq])
      have hfold := bbFold_spec rest (p0.take D, p0.take D) D
        (by simp [htake, hp0]) (by simp [htake, hp0]) hrest
      rcases List.mem_cons.mp hp with rfl | hp'
      · exact hfold.1 p (by rw [htake]; exact inBox_self p)
      · exact hfold.2 p hp'

/-! ### Sortedness and the split scan -/

theorem sorted_insertionSort_key (ax : ℕ) (seg : List (Pt × ℕ)) :
    List.Sorted (fun p q => ptKey ax p ≤ ptKey ax q)
      (List.insertionSort (fun p q => ptKey ax p ≤ ptKey ax q) seg) := by
  have ht : IsTotal (Pt × ℕ) (fun p q => ptKey ax p ≤ ptKey ax q) :=
    ⟨fun a b => le_total _ _⟩
  have htr : IsTrans (Pt × ℕ) (fun p q => ptKey ax p ≤ ptKey ax q) :=
    ⟨fun a b c hab hbc => le_trans hab hbc⟩
  exact List.sorted_insertionSort _ seg

theorem sorted_key_getD_mono {ax : ℕ} {l : List (Pt × ℕ)}
    (hs : List.Sorted (fun p q => ptKey ax p ≤ ptKey ax q) l)
    {i j : ℕ} (hij : i ≤ j) (hj : j < l.length) :
    ptKey ax (l.getD i ([], 0)) ≤ ptKey ax (l.getD j ([], 0)) := by
  rcases Nat.eq_or_lt_of_le hij with rfl | hlt
  · exact le_refl _
  · have hi : i < l.length := lt_trans hlt hj
    rw [List.getD_eq_getElem _ _ hi, List.getD_eq_getElem _ _ hj]
    exact hs.rel_get_of_lt (a := ⟨i, hi⟩) (b := ⟨j, hj⟩) hlt

theorem scanBack_ge (l : List (Pt × ℕ)) (ax : ℕ) (v : ℚ) :
    ∀ (k j : ℕ), scanBack l ax v k ≤ j → j < k → v ≤ ptKey ax (l.getD j ([], 0)) := by
  intro k
  induction k with
  | zero => intro j _ hj; omega
  | succ k ih =>
      intro j h1 h2
      rw [scanBack] at h1
      by_cases hc : v ≤ ptKey ax (l.getD k ([], 0))
      · rw [if_pos hc] at h1
        rcases Nat.lt_succ_iff_lt_or_eq.mp h2 with h | rfl
        · exact ih j h1 h
        · exact hc
      · rw [if_neg hc] at h1
        omega

theorem scanBack_stop (l : List (Pt × ℕ)) (ax : ℕ) (v : ℚ) :
    ∀ k, scanBack l ax v k ≠ 0 →
      ptKey ax (l.getD (scanBack l ax v k - 1) ([], 0)) < v := by
  intro k
  induction k with
  | zero => intro h; simp [scanBack] at h
  | succ k ih =>
      intro h
      rw [scanBack] at h ⊢
      by_cases hc : v ≤ ptKey ax (l.getD k ([], 0))
      · rw [if_pos hc] at h ⊢
        exact ih h
      · rw [if_neg hc] at h ⊢
        simpa using lt_of_not_le hc

/-! ### Membership of take/drop via positions -/

theorem mem_take_getD {α : Type} (d : α) {l : List α} {m : ℕ} {p : α} (h : p ∈ l.take m) :
    ∃ i, i < m ∧ i < l.length ∧ l.getD i d = p := by
  rcases List.mem_iff_getElem.mp h with ⟨i, hi, hget⟩
  have hi' : i < m ∧ i < l.length := by
    have := hi
    simp [List.length_take] at this
    omega
  refine ⟨i, hi'.1, hi'.2, ?_⟩
  rw [List.getD_eq_getElem _ _ hi'.2, ← hget]
  exact (List.getElem_take _).symm

theorem mem_drop_getD {α : Type} (d : α) {l : List α} {m : ℕ} {p : α} (h : p ∈ l.drop m) :
    ∃ i, m ≤ i ∧ i < l.length ∧ l.getD i d = p := by
  rcases List.mem_iff_getElem.mp h with ⟨i, hi, hget⟩
  have hi' : m + i < l.length := by
    have := hi
    simp [List.length_drop] at this
    omega
  refine ⟨m + i, by omega, hi', ?_⟩
  rw [List.getD_eq_getElem _ _ hi', ← hget]
  exact (List.getElem_drop _).symm


/-! ### Well-formedness of built subtrees -/

/-- Well-formedness of the node built for a segment: the node records the
range `[start, start + seg.length)`, every point of the (already reordered)
segment lies in the node's bounding box, and an internal node splits the
segment into a non-empty front whose `splitAxis` coordinates are `< v` and a
non-empty back whose coordinates are `≥ v`, each child well-formed for its
part. -/
def SegWF : ℕ → List (Pt × ℕ) → KDNode → Prop
  | start, seg, KDNode.leaf mn mx s e =>
      s = start ∧ e = start + seg.length ∧ ∀ p ∈ seg, inBox mn mx p.1
  | start, seg, KDNode.node mn mx s e ax v l r =>
      s = start ∧ e = start + seg.length ∧ (∀ p ∈ seg, inBox mn mx p.1) ∧
      ∃ ls rs, seg = ls ++ rs ∧ ls ≠ [] ∧ rs ≠ [] ∧
        (∀ p ∈ ls, ptKey ax p < v) ∧ (∀ p ∈ rs, v ≤ ptKey ax p) ∧
        SegWF start ls l ∧ SegWF (start + ls.length) rs r

theorem buildNode_spec (D minLeaf : ℕ) (start : ℕ) (seg : List (Pt × ℕ))
    (hl : ∀ p ∈ seg, p.1.length = D) :
    (buildNode D minLeaf start seg).1.Perm seg ∧
    SegWF start (buildNode D minLeaf start seg).1 (buildNode D minLeaf start seg).2 := by
  have hbox : ∀ p ∈ seg,
      inBox (calculateBoundingBox D (seg.map Prod.fst)).1
        (calculateBoundingBox D (seg.map Prod.fst)).2 p.1 := by
    intro p hp
    refine calculateBoundingBox_spec D (seg.map Prod.fst) ?_ p.1 (List.mem_map_of_mem _ hp)
    intro q hq
    rcases List.mem_map.mp hq with ⟨p', hp', rfl⟩
    exact hl p' hp'
  rw [buildNode]
  simp only []
  set bb := calculateBoundingBox D (seg.map Prod.fst) with hbb
  set ar := chooseSplitAxis bb.1 bb.2 D with har_def
  set ax := ar.1.toNat with hax_def
  set sorted := List.insertionSort (fun p q => ptKey ax p ≤ ptKey ax q) seg with hsorted_def
  set v := ptKey ax (sorted.getD (seg.length / 2) ([], 0)) with hv_def
  set m := scanBack sorted ax v (seg.length / 2) with hm_def
  have hsperm : sorted.Perm seg := by
    rw [hsorted_def]; exact List.perm_insertionSort _ seg
  have hslen : sorted.length = seg.length := hsperm.length_eq
  have hsort : List.Sorted (fun p q => ptKey ax p ≤ ptKey ax q) sorted := by
    rw [hsorted_def]; exact sorted_insertionSort_key ax seg
  split_ifs with hn har hm
  · exact ⟨List.Perm.refl seg, rfl, rfl, hbox⟩
  · exact ⟨List.Perm.refl seg, rfl, rfl, hbox⟩
  · refine ⟨hsperm, rfl, by rw [hslen], ?_⟩
    intro p hp
    exact hbox p (hsperm.mem_iff.mp hp)
  · -- internal node: recurse on both halves
    have hm_le : m ≤ seg.length / 2 := by
      rw [hm_def]; exact scanBack_le sorted ax v (seg.length / 2)
    have hn1 : 1 ≤ seg.length := by omega
    have hmid : seg.length / 2 < seg.length := by omega
    have hm_lt : m < sorted.length := by omega
    have hl_take : ∀ p ∈ sorted.take m, p.1.length = D := by
      intro p hp
      exact hl p (hsperm.mem_iff.mp (List.mem_of_mem_take hp))
    have hl_drop : ∀ p ∈ sorted.drop m, p.1.length = D := by
      intro p hp
      exact hl p (hsperm.mem_iff.mp (List.mem_of_mem_drop hp))
    have IHl := buildNode_spec D minLeaf start (sorted.take m) hl_take
    have IHr := buildNode_spec D minLeaf (start + m) (sorted.drop m) hl_drop
    have hlen_take : (sorted.take m).length = m := by
      simp [List.length_take]; omega
    have hlen_drop : (sorted.drop m).length = sorted.length - m := by
      simp [List.length_drop]
    have hbl : (buildNode D minLeaf start (sorted.take m)).1.length = m :=
      IHl.1.length_eq.trans hlen_take
    have hbr : (buildNode D minLeaf (start + m) (sorted.drop m)).1.length
        = sorted.length - m := IHr.1.length_eq.trans hlen_drop
    constructor
    · refine List.Perm.trans (List.Perm.append IHl.1 IHr.1) ?_
      rw [List.take_append_drop]
      exact hsperm
    · refine ⟨rfl, ?_, ?_, ?_⟩
      · simp only [List.length_append, hbl, hbr]
        omega
      · intro p hp
        rcases List.mem_append.mp hp with h | h
        · exact hbox p (hsperm.mem_iff.mp (List.mem_of_mem_take (IHl.1.mem_iff.mp h)))
        · exact hbox p (hsperm.mem_iff.mp (List.mem_of_mem_drop (IHr.1.mem_iff.mp h)))
      · refine ⟨(buildNode D minLeaf start (sorted.take m)).1,
          (buildNode D minLeaf (start + m) (sorted.drop m)).1, rfl, ?_, ?_, ?_, ?_, IHl.2, ?_⟩
        · intro hnil
          rw [hnil] at hbl
          simp at hbl
          omega
        · intro hnil
          rw [hnil] at hbr
          simp at hbr
          omega
        · intro p hp
          rcases mem_take_getD ([], 0) (IHl.1.mem_iff.mp hp) with ⟨i, hi_m, hi_len, hi_eq⟩
          have hstep : ptKey ax (sorted.getD i ([], 0)) ≤ ptKey ax (sorted.getD (m - 1) ([], 0)) :=
            sorted_key_getD_mono hsort (by omega) (by omega)
          have hstop : ptKey ax (sorted.getD (m - 1) ([], 0)) < v := by
            rw [hm_def]
            exact scanBack_stop sorted ax v (seg.length / 2) (by rw [← hm_def]; exact hm)
          rw [← hi_eq]
          exact lt_of_le_of_lt hstep hstop
        · intro p hp
          rcases mem_drop_getD ([], 0) (IHr.1.mem_iff.mp hp) with ⟨i, hi_m, hi_len, hi_eq⟩
          rw [← hi_eq]
          rcases lt_trichotomy i (seg.length / 2) with hlt | heq | hgt
          · exact scanBack_ge sorted ax v (seg.length / 2) i (by omega) hlt
          · rw [heq, hv_def]
          · have : v ≤ ptKey ax (sorted.getD (seg.length / 2) ([], 0)) := le_of_eq hv_def
            exact le_trans this (sorted_key_getD_mono hsort (by omega) (by omega))
        · rw [hbl]
          exact IHr.2
termination_by seg.length
decreasing_by
  · show (List.take m sorted).length < seg.length
    have h1 : sorted.length = seg.length := hsperm.length_eq
    simp only [List.length_take]
    omega
  · show (List.drop m sorted).length < seg.length
    have h1 : sorted.length = seg.length := hsperm.length_eq
    simp only [List.length_drop]
    omega

/-! ### Global (position-indexed) well-formedness over the tree's point list -/

theorem SegWF.startIdx_eq {start : ℕ} {seg : List (Pt × ℕ)} {node : KDNode}
    (h : SegWF start seg node) : node.startIdx = start := by
  cases node with
  | leaf mn mx s e => exact h.1
  | node mn mx s e ax v l r => exact h.1

theorem SegWF.endIdx_eq {start : ℕ} {seg : List (Pt × ℕ)} {node : KDNode}
    (h : SegWF start seg node) : node.endIdx = start + seg.length := by
  cases node with
  | leaf mn mx s e => exact h.2.1
  | node mn mx s e ax v l r => exact h.2.1

theorem getD_middle {α : Type} (d : α) (pre mid post : List α) (i : ℕ)
    (h1 : pre.length ≤ i) (h2 : i < pre.length + mid.length) :
    (pre ++ (mid ++ post)).getD i d = mid.getD (i - pre.length) d := by
  have hi : i < (pre ++ (mid ++ post)).length := by
    simp [List.length_append]
    omega
  have hj : i - pre.length < mid.length := by omega
  have hj2 : i - pre.length < (mid ++ post).length := by
    simp [List.length_append]
    omega
  rw [List.getD_eq_getElem _ _ hi, List.getD_eq_getElem _ _ hj]
  rw [List.getElem_append_right h1]
  exact List.getElem_append_left hj

theorem getD_map_fst (seg : List (Pt × ℕ)) (j : ℕ) (hj : j < seg.length) :
    (List.map Prod.fst seg).getD j [] = (seg.getD j ([], 0)).1 := by
  have hj' : j < (List.map Prod.fst seg).length := by simpa using hj
  rw [List.getD_eq_getElem _ _ hj', List.getD_eq_getElem _ _ hj]
  exact List.getElem_map _

theorem getD_mem_of_lt {α : Type} (d : α) (l : List α) (j : ℕ) (hj : j < l.length) :
    l.getD j d ∈ l := by
  rw [List.getD_eq_getElem _ _ hj]
  exact List.getElem_mem hj

/-- Position-indexed well-formedness of a node over the final point list of
the tree: range bounds, bounding-box containment, child range contiguity and
non-emptiness, and the strict-less / greater-or-equal split invariant. -/
def GNodeWF (pts : List Pt) : KDNode → Prop
  | KDNode.leaf mn mx s e =>
      s ≤ e ∧ e ≤ pts.length ∧
      ∀ i, s ≤ i → i < e → inBox mn mx (pts.getD i [])
  | KDNode.node mn mx s e ax v l r =>
      s ≤ e ∧ e ≤ pts.length ∧
      (∀ i, s ≤ i → i < e → inBox mn mx (pts.getD i [])) ∧
      l.startIdx = s ∧ l.endIdx = r.startIdx ∧ r.endIdx = e ∧
      s < l.endIdx ∧ l.endIdx < e ∧
      (∀ i, s ≤ i → i < l.endIdx → (pts.getD i []).getD ax 0 < v) ∧
      (∀ i, l.endIdx ≤ i → i < e → v ≤ (pts.getD i []).getD ax 0) ∧
      GNodeWF pts l ∧ GNodeWF pts r

theorem segWF_global (node : KDNode) :
    ∀ (pre post : List Pt) (seg : List (Pt × ℕ)),
      SegWF pre.length seg node →
      GNodeWF (pre ++ (seg.map Prod.fst ++ post)) node := by
  induction node with
  | leaf mn mx s e =>
      intro pre post seg h
      obtain ⟨hs, he, hbox⟩ := h
      subst hs
      refine ⟨by omega, ?_, ?_⟩
      · simp [List.length_append, he]
      · intro i hi1 hi2
        have hlt : i < pre.length + (seg.map Prod.fst).length := by
          simp only [List.length_map]
          omega
        rw [getD_middle [] pre (seg.map Prod.fst) post i hi1 hlt]
        have hj : i - pre.length < seg.length := by
          simp only [List.length_map] at hlt
          omega
        rw [getD_map_fst seg _ hj]
        exact hbox _ (getD_mem_of_lt ([], 0) seg _ hj)
  | node mn mx s e ax v l r ihl ihr =>
      intro pre post seg h
      obtain ⟨hs, he, hbox, ls, rs, hsplit, hls, hrs, hkeyl, hkeyr, hwfl, hwfr⟩ := h
      subst hs
      subst hsplit
      have hlsl : 0 < ls.length := List.length_pos.mpr hls
      have hrsl : 0 < rs.length := List.length_pos.mpr hrs
      have hlend : l.endIdx = pre.length + ls.length := hwfl.endIdx_eq
      have hlstart : l.startIdx = pre.length := hwfl.startIdx_eq
      have hrstart : r.startIdx = pre.length + ls.length := hwfr.startIdx_eq
      have hrend : r.endIdx = pre.length + ls.length + rs.length := hwfr.endIdx_eq
      have hassoc : pre ++ ((ls ++ rs).map Prod.fst ++ post)
          = pre ++ (ls.map Prod.fst ++ (rs.map Prod.fst ++ post)) := by
        simp [List.map_append, List.append_assoc]
      have hassoc2 : pre ++ ((ls ++ rs).map Prod.fst ++ post)
          = (pre ++ ls.map Prod.fst) ++ (rs.map Prod.fst ++ post) := by
        simp [List.map_append, List.append_assoc]
      have hseglen : (ls ++ rs).length = ls.length + rs.length := List.length_append ls rs
      refine ⟨by omega, ?_, ?_, by omega, by omega, by omega, by omega, by omega, ?_, ?_, ?_, ?_⟩
      · simp [List.length_append, he, hseglen]
      · intro i hi1 hi2
        have hlt : i < pre.length + ((ls ++ rs).map Prod.fst).length := by
          simp only [List.length_map, hseglen]
          omega
        rw [getD_middle [] pre ((ls ++ rs).map Prod.fst) post i hi1 hlt]
        have hj : i - pre.length < (ls ++ rs).length := by
          simp only [List.length_map] at hlt
          omega
        rw [getD_map_fst _ _ hj]
        exact hbox _ (getD_mem_of_lt ([], 0) _ _ hj)
      · -- left split bound
        intro i hi1 hi2
        rw [hlend] at hi2
        rw [hassoc]
        have hlt : i < pre.length + (ls.map Prod.fst).length := by
          simp only [List.length_map]
          omega
        rw [getD_middle [] pre (ls.map Prod.fst) (rs.map Prod.fst ++ post) i hi1 hlt]
        have hj : i - pre.length < ls.length := by omega
        rw [getD_map_fst ls _ hj]
        exact hkeyl _ (getD_mem_of_lt ([], 0) ls _ hj)
      · -- right split bound
        intro i hi1 hi2
        rw [hlend] at hi1
        rw [hassoc2]
        have hpre2 : (pre ++ ls.map Prod.fst).length = pre.length + ls.length := by
          simp [List.length_append]
        have hi1' : (pre ++ ls.map Prod.fst).length ≤ i := by omega
        have hlt : i < (pre ++ ls.map Prod.fst).length + (rs.map Prod.fst).length := by
          simp only [List.length_map, hpre2]
          omega
        rw [getD_middle [] (pre ++ ls.map Prod.fst) (rs.map Prod.fst) post i hi1' hlt]
        have hj : i - (pre ++ ls.map Prod.fst).length < rs.length := by
          simp only [List.length_map] at hlt
          omega
        rw [getD_map_fst rs _ hj]
        exact hkeyr _ (getD_mem_of_lt ([], 0) rs _ hj)
      · rw [hassoc]
        exact ihl pre (rs.map Prod.fst ++ post) ls hwfl
      · rw [hassoc2]
        refine ihr (pre ++ ls.map Prod.fst) post rs ?_
        have : (pre ++ ls.map Prod.fst).length = pre.length + ls.length := by
          simp [List.length_append]
        rw [this]
        exact hwfr

theorem getD_map_snd (seg : List (Pt × ℕ)) (j : ℕ) (hj : j < seg.length) :
    (List.map Prod.snd seg).getD j 0 = (seg.getD j ([], 0)).2 := by
  have hj' : j < (List.map Prod.snd seg).length := by simpa using hj
  rw [List.getD_eq_getElem _ _ hj', List.getD_eq_getElem _ _ hj]
  exact List.getElem_map _

theorem mem_zip_range {l : List Pt} {p : Pt × ℕ} (h : p ∈ l.zip (List.range l.length)) :
    p.2 < l.length ∧ p.1 = l.getD p.2 [] := by
  rcases List.mem_iff_getElem.mp h with ⟨k, hk, hget⟩
  have hk' : k < l.length := by
    simp [List.length_zip] at hk
    omega
  have hkr : k < (List.range l.length).length := by simpa using hk'
  rw [List.getElem_zip] at hget
  have h2 : p.2 = k := by
    rw [← hget]
    simp [List.getElem_range]
  have h1 : p.1 = l[k] := by rw [← hget]
  constructor
  · omega
  · rw [h1, h2, List.getD_eq_getElem _ _ hk']

/-- Full well-formedness of a built `KDTree` relative to the chunked original
input `orig`: sizes agree, `order` is a permutation of `[0, N)`, position `i`
of the tree's points holds original point `order[i]`, all points have the
tree's dimension, and the root is a well-formed cover of the whole range. -/
def KDTreeWF (D : ℕ) (orig : List Pt) (kd : KDTree) : Prop :=
  kd.dimension = D ∧
  kd.numPoints = orig.length ∧
  kd.points.length = orig.length ∧
  kd.order.length = orig.length ∧
  kd.order.Perm (List.range orig.length) ∧
  (∀ i, i < orig.length → kd.points.getD i [] = orig.getD (kd.order.getD i 0) []) ∧
  (∀ p ∈ kd.points, p.length = D) ∧
  kd.root.startIdx = 0 ∧
  kd.root.endIdx = orig.length ∧
  GNodeWF kd.points kd.root

theorem NewKDTree_spec (pointsData : List ℚ) (dimension minPointsPerLeaf : ℤ)
    (h1 : pointsData ≠ []) (h2 : 0 < dimension)
    (h3 : (pointsData.length : ℤ) % dimension = 0) (h4 : 1 ≤ minPointsPerLeaf) :
    ∃ kd, (NewKDTree pointsData dimension minPointsPerLeaf).2 = Except.ok kd ∧
      KDTreeWF dimension.toNat (chunkPoints dimension.toNat pointsData) kd := by
  have hD0 : dimension.toNat ≠ 0 := by omega
  have hcast : (dimension.toNat : ℤ) = dimension := Int.toNat_of_nonneg (by omega)
  have hmod : pointsData.length % dimension.toNat = 0 := by
    have : ((pointsData.length % dimension.toNat : ℕ) : ℤ)
        = (pointsData.length : ℤ) % (dimension.toNat : ℤ) := Int.ofNat_mod _ _
    rw [hcast, h3] at this
    omega
  have hdvd : dimension.toNat ∣ pointsData.length := Nat.dvd_of_mod_eq_zero hmod
  have hlenpos : 0 < pointsData.length := List.length_pos.mpr h1
  have hge : dimension.toNat ≤ pointsData.length := Nat.le_of_dvd hlenpos hdvd
  have hnum : 1 ≤ pointsData.length / dimension.toNat := by
    rw [Nat.le_div_iff_mul_le (by omega)]
    omega
  have hchlen : (chunkPoints dimension.toNat pointsData).length
      = pointsData.length / dimension.toNat :=
    chunkPoints_length _ _ hD0 hdvd
  have hchmem : ∀ p ∈ chunkPoints dimension.toNat pointsData, p.length = dimension.toNat :=
    chunkPoints_mem_length _ _ hD0 hdvd
  simp only [NewKDTree]
  rw [if_neg (by omega), if_neg (by omega), if_neg (by simp [h3]), if_neg (by omega),
    if_neg (by omega)]
  set D := dimension.toNat with hDdef
  set N := pointsData.length / D with hNdef
  set chunks := chunkPoints D pointsData with hchunks
  set seg0 := chunks.zip (List.range N) with hseg0
  have hseg0len : seg0.length = N := by
    rw [hseg0, List.length_zip, hchlen]
    simp
  have hl : ∀ p ∈ seg0, p.1.length = D := by
    intro p hp
    have := (List.mem_zip hp).1
    exact hchmem p.1 this
  have bs := buildNode_spec D minPointsPerLeaf.toNat 0 seg0 hl
  set res := buildNode D minPointsPerLeaf.toNat 0 seg0 with hres
  have hreslen : res.1.length = N := bs.1.length_eq.trans hseg0len
  have hrange : List.range N = List.range chunks.length := by rw [hchlen]
  refine ⟨⟨res.1.map Prod.fst, N, D, res.1.map Prod.snd, res.2⟩, rfl, ?_⟩
  have hchlen' : chunks.length = N := hchlen
  have hmemzip : ∀ p ∈ res.1, p.2 < N ∧ p.1 = chunks.getD p.2 [] := by
    intro p hp
    have hp0 : p ∈ seg0 := bs.1.mem_iff.mp hp
    have : p ∈ chunks.zip (List.range chunks.length) := by
      rw [← hrange]
      exact hp0
    have h := mem_zip_range this
    rw [hchlen'] at h
    exact h
  refine ⟨rfl, ?_, ?_, ?_, ?_, ?_, ?_, ?_, ?_, ?_⟩
  · simpa using hchlen'.symm
  · simp only [List.length_map]
    rw [hreslen, hchlen']
  · simp only [List.length_map]
    rw [hreslen, hchlen']
  · rw [hchlen']
    have : (res.1.map Prod.snd).Perm (seg0.map Prod.snd) := bs.1.map Prod.snd
    have hz : seg0.map Prod.snd = List.range N := by
      rw [hseg0]
      exact List.map_snd_zip _ _ (by rw [hchlen']; simp)
    rw [hz] at this
    exact this
  · intro i hi
    rw [hchlen'] at hi
    have hi' : i < res.1.length := by omega
    rw [getD_map_fst res.1 i hi', getD_map_snd res.1 i hi']
    have hmem := hmemzip (res.1.getD i ([], 0)) (getD_mem_of_lt ([], 0) res.1 i hi')
    exact hmem.2
  · intro p hp
    rcases List.mem_map.mp hp with ⟨pr, hpr, rfl⟩
    exact hl pr (bs.1.mem_iff.mp hpr)
  · exact bs.2.startIdx_eq
  · rw [bs.2.endIdx_eq, hreslen, hchlen']
    omega
  · have := segWF_global res.2 [] [] res.1 (by simpa using bs.2)
    simpa using this

/-! ### Validation outcomes, reconstruction, split bounds, read-only queries -/

theorem NewKDTree_error_of_invalid (pointsData : List ℚ) (dimension minPointsPerLeaf : ℤ)
    (h : pointsData = [] ∨ dimension ≤ 0 ∨ (pointsData.length : ℤ) % dimension ≠ 0 ∨
      minPointsPerLeaf < 1) :
    (NewKDTree pointsData dimension minPointsPerLeaf).2
      = Except.error GeomError.invalidArgument := by
  by_cases hp : pointsData.length = 0
  · simp [NewKDTree, hp]
  · by_cases hd : dimension ≤ 0
    · simp [NewKDTree, hp, hd]
    · by_cases hmod : (pointsData.length : ℤ) % dimension = 0
      · by_cases hm : minPointsPerLeaf < 1
        · simp [NewKDTree, hp, hd, hmod, hm]
        · exfalso
          rcases h with h | h | h | h
          · exact hp (by simp [h])
          · exact hd h
          · exact h hmod
          · exact hm h
      · simp [NewKDTree, hp, hd, hmod]

/-- The reconstruction loop of the repository's round-trip test: a fresh
buffer whose position `order[i]` receives the point at tree position `i`;
as a function, position `j` holds the tree point whose `order` entry is
`j`. -/
def reconstructOriginal (kd : KDTree) : List Pt :=
  (List.range kd.numPoints).map (fun j => kd.points.getD (List.indexOf j kd.order) [])

theorem reconstructOriginal_eq (D : ℕ) (orig : List Pt) (kd : KDTree)
    (h : KDTreeWF D orig kd) : reconstructOriginal kd = orig := by
  obtain ⟨_, hnum, hplen, holen, hperm, hpoint, _, _, _, _⟩ := h
  have hnodup : kd.order.Nodup := hperm.nodup_iff.mpr (List.nodup_range _)
  refine List.ext_getElem ?_ ?_
  · simp [reconstructOriginal, hnum]
  · intro j hj1 hj2
    have hjN : j < orig.length := by
      simpa [reconstructOriginal, hnum] using hj1
    have hjrange : j < (List.range kd.numPoints).length := by
      simpa [hnum] using hjN
    simp only [reconstructOriginal, List.getElem_map, List.getElem_range]
    have hmem : j ∈ kd.order := by
      refine hperm.mem_iff.mpr ?_
      simpa using hjN
    have hidx : List.indexOf j kd.order < kd.order.length := List.indexOf_lt_length.mpr hmem
    have hidx' : List.indexOf j kd.order < orig.length := by omega
    have hgetidx : kd.order.getD (List.indexOf j kd.order) 0 = j := by
      rw [List.getD_eq_getElem _ _ hidx]
      exact List.getElem_indexOf hidx
    have := hpoint (List.indexOf j kd.order) hidx'
    rw [hgetidx] at this
    rw [this]
    exact List.getD_eq_getElem orig [] hj2

/-- Split-point bounds at every internal node: the split position lies
strictly inside the node's range and is shared by the two children, so each
recursive call of `buildNode` is on a strictly smaller non-empty range. -/
def SplitBounds : KDNode → Prop
  | KDNode.leaf _ _ _ _ => True
  | KDNode.node _ _ s e _ _ l r =>
      s < l.endIdx ∧ l.endIdx < e ∧ l.startIdx = s ∧ l.endIdx = r.startIdx ∧ r.endIdx = e ∧
      SplitBounds l ∧ SplitBounds r

theorem GNodeWF.splitBounds {pts : List Pt} : ∀ {node : KDNode},
    GNodeWF pts node → SplitBounds node := by
  intro node
  induction node with
  | leaf mn mx s e => intro _; trivial
  | node mn mx s e ax v l r ihl ihr =>
      intro h
      obtain ⟨_, _, _, hls, hle, hre, hlt1, hlt2, _, _, hwl, hwr⟩ := h
      exact ⟨hlt1, hlt2, hls, hle, hre, ihl hwl, ihr hwr⟩

theorem radiusEdgesRecursiveImpl_readonly :
    ∀ (kdNode : KDNode) (kd : KDTree) (target : List (Pt × ℕ)) (radius radius2 : ℚ)
      (edges : List (ℕ × ℕ)),
      (radiusEdgesRecursiveImpl kd kdNode target radius radius2 edges).1 = kd := by
  intro kdNode
  induction kdNode with
  | leaf mn mx s e =>
      intro kd target radius radius2 edges
      rw [radiusEdgesRecursiveImpl]
      split <;> rfl
  | node mn mx s e ax v l r ihl ihr =>
      intro kd target radius radius2 edges
      rw [radiusEdgesRecursiveImpl]
      split
      · rfl
      · simp only []
        rw [ihl]
        exact ihr _ _ _ _ _

theorem findNearestRecursive_readonly :
    ∀ (node : KDNode) (kd : KDTree) (point : Pt) (best : ℤ × ℚ),
      (findNearestRecursive kd node point best).1 = kd := by
  intro node
  induction node with
  | leaf mn mx s e => intro kd point best; rfl
  | node mn mx s e ax v l r ihl ihr =>
      intro kd point best
      rw [findNearestRecursive]
      split
      · simp only []
        split
        · rw [ihr, ihl]
        · exact ihl kd point best
      · simp only []
        split
        · rw [ihl, ihr]
        · exact ihr kd point best

/-! ### Pruning safety of the box test -/

theorem l2Dist2_comm (a b : Pt) : l2Dist2 a b = l2Dist2 b a := by
  induction a generalizing b with
  | nil => cases b <;> simp [l2Dist2_nil_left, l2Dist2_nil_right]
  | cons x xs ih =>
      cases b with
      | nil => simp [l2Dist2_nil_left, l2Dist2_nil_right]
      | cons y ys =>
          rw [l2Dist2_cons, l2Dist2_cons, ih ys]
          ring_nf

theorem closestInBox_none_far (q mx mn t : Pt) (r : ℚ) (hr : 0 ≤ r)
    (hbox : inBox mn mx t) (hq : q.length = t.length)
    (hnone : closestInBox q mx mn r = none) : r * r < l2Dist2 q t := by
  induction q generalizing mx mn t with
  | nil => simp [closestInBox] at hnone
  | cons p ps ih =>
      cases t with
      | nil => simp at hq
      | cons t0 ts =>
          cases mn with
          | nil => exact absurd hbox (by simp [inBox])
          | cons bMin bMins =>
              cases mx with
              | nil => exact absurd hbox (by simp [inBox])
              | cons bMax bMaxs =>
                  rw [inBox_cons] at hbox
                  obtain ⟨hb1, hb2, hb3⟩ := hbox
                  have hq' : ps.length = ts.length := by simpa using hq
                  rw [closestInBox] at hnone
                  rw [l2Dist2_cons]
                  by_cases hc1 : p < bMin
                  · rw [if_pos hc1] at hnone
                    by_cases hc2 : r < bMin - p
                    · have h1 : r < t0 - p := by linarith
                      have h2 : r * r < (p - t0) * (p - t0) := by nlinarith
                      have := l2Dist2_nonneg ps ts
                      linarith
                    · rw [if_neg hc2, Option.map_eq_none'] at hnone
                      have := ih bMaxs bMins ts hb3 hq' hnone
                      nlinarith [mul_self_nonneg (p - t0)]
                  · rw [if_neg hc1] at hnone
                    by_cases hc3 : bMax < p
                    · rw [if_pos hc3] at hnone
                      by_cases hc4 : r < p - bMax
                      · have h1 : r < p - t0 := by linarith
                        have h2 : r * r < (p - t0) * (p - t0) := by nlinarith
                        have := l2Dist2_nonneg ps ts
                        linarith
                      · rw [if_neg hc4, Option.map_eq_none'] at hnone
                        have := ih bMaxs bMins ts hb3 hq' hnone
                        nlinarith [mul_self_nonneg (p - t0)]
                    · rw [if_neg hc3, Option.map_eq_none'] at hnone
                      have := ih bMaxs bMins ts hb3 hq' hnone
                      nlinarith [mul_self_nonneg (p - t0)]

theorem closestInBox_some_close (q mx mn t : Pt) (r : ℚ)
    (hbox : inBox mn mx t) (hq : q.length = t.length) :
    ∀ c, closestInBox q mx mn r = some c → l2Dist2 q c ≤ l2Dist2 q t := by
  induction q generalizing mx mn t with
  | nil =>
      intro c hc
      simp [closestInBox] at hc
      subst hc
      simp [l2Dist2_nil_left]
  | cons p ps ih =>
      cases t with
      | nil => simp at hq
      | cons t0 ts =>
          cases mn with
          | nil => exact absurd hbox (by simp [inBox])
          | cons bMin bMins =>
              cases mx with
              | nil => exact absurd hbox (by simp [inBox])
              | cons bMax bMaxs =>
                  rw [inBox_cons] at hbox
                  obtain ⟨hb1, hb2, hb3⟩ := hbox
                  have hq' : ps.length = ts.length := by simpa using hq
                  intro c hc
                  rw [closestInBox] at hc
                  by_cases hc1 : p < bMin
                  · rw [if_pos hc1] at hc
                    by_cases hc2 : r < bMin - p
                    · rw [if_pos hc2] at hc
                      exact absurd hc (by simp)
                    · rw [if_neg hc2] at hc
                      rcases Option.map_eq_some'.mp hc with ⟨c', hc', rfl⟩
                      rw [l2Dist2_cons, l2Dist2_cons]
                      have := ih bMaxs bMins ts hb3 hq' c' hc'
                      nlinarith
                  · rw [if_neg hc1] at hc
                    by_cases hc3 : bMax < p
                    · rw [if_pos hc3] at hc
                      by_cases hc4 : r < p - bMax
                      · rw [if_pos hc4] at hc
                        exact absurd hc (by simp)
                      · rw [if_neg hc4] at hc
                        rcases Option.map_eq_some'.mp hc with ⟨c', hc', rfl⟩
                        rw [l2Dist2_cons, l2Dist2_cons]
                        have := ih bMaxs bMins ts hb3 hq' c' hc'
                        nlinarith
                    · rw [if_neg hc3] at hc
                      rcases Option.map_eq_some'.mp hc with ⟨c', hc', rfl⟩
                      rw [l2Dist2_cons, l2Dist2_cons]
                      have := ih bMaxs bMins ts hb3 hq' c' hc'
                      nlinarith [mul_self_nonneg (p - t0)]

/-- Pruning never drops a target that is within `radius` of some point inside
the node's bounding box: the box test accepts any query point whose true
squared distance to an in-box point is at most `radius²`. -/
theorem radiusIntersect_complete (q mx mn t : Pt) (r : ℚ) (hr : 0 ≤ r)
    (hbox : inBox mn mx t) (hq : q.length = t.length)
    (hd : l2Dist2 q t ≤ r * r) :
    radiusIntersectWithBoundingBox q mx mn r (r * r) = true := by
  rw [radiusIntersectWithBoundingBox]
  cases hc : closestInBox q mx mn r with
  | none =>
      exfalso
      have := closestInBox_none_far q mx mn t r hr hbox hq hc
      linarith
  | some c =>
      simp only [decide_eq_true_eq]
      have := closestInBox_some_close q mx mn t r hbox hq c hc
      linarith

/-! ### Radius query: recursion invariants -/

theorem mem_filterMap_pair {γ : Type} {c : γ} {P : Pt × ℕ → Prop} [DecidablePred P]
    {l : List (Pt × ℕ)} {pr : γ × ℕ}
    (h : pr ∈ l.filterMap (fun tp => if P tp then some (c, tp.2) else none)) :
    pr.1 = c ∧ pr.2 ∈ l.map Prod.snd := by
  rcases List.mem_filterMap.mp h with ⟨tp, htp, heq⟩
  by_cases hp : P tp
  · rw [if_pos hp] at heq
    cases heq
    exact ⟨rfl, List.mem_map_of_mem _ htp⟩
  · rw [if_neg hp] at heq
    cases heq

theorem nodup_filterMap_pair {γ : Type} (c : γ) (P : Pt × ℕ → Prop) [DecidablePred P] :
    ∀ (l : List (Pt × ℕ)), (l.map Prod.snd).Nodup →
      (l.filterMap (fun tp => if P tp then some (c, tp.2) else none)).Nodup := by
  intro l
  induction l with
  | nil => intro _; simp
  | cons tp l' ih =>
      intro hnd
      simp only [List.map_cons, List.nodup_cons] at hnd
      rw [List.filterMap_cons]
      by_cases hp : P tp
      · rw [if_pos hp]
        refine List.nodup_cons.mpr ⟨?_, ih hnd.2⟩
        intro hmem
        exact hnd.1 ((mem_filterMap_pair hmem).2)
      · rw [if_neg hp]
        exact ih hnd.2

theorem order_getD_inj (kd : KDTree) (hnd : kd.order.Nodup) {i j : ℕ}
    (hi : i < kd.order.length) (hj : j < kd.order.length) (hne : i ≠ j) :
    kd.order.getD i 0 ≠ kd.order.getD j 0 := by
  rw [List.getD_eq_getElem _ _ hi, List.getD_eq_getElem _ _ hj]
  intro heq
  exact hne ((hnd.getElem_inj_iff).mp heq)

theorem radiusRec_spec (kd : KDTree) (D : ℕ) (radius : ℚ)
    (hptD : ∀ p ∈ kd.points, p.length = D)
    (holen : kd.order.length = kd.points.length)
    (hr : 0 ≤ radius) :
    ∀ (node : KDNode), GNodeWF kd.points node →
    ∀ (tw : List (Pt × ℕ)) (edges : List (ℕ × ℕ)),
      (∀ p ∈ tw, p.1.length = D) →
      ∃ new,
        (radiusEdgesRecursiveImpl kd node tw radius (radius * radius) edges).2
          = edges ++ new ∧
        (∀ pr ∈ new, ∃ i tp, node.startIdx ≤ i ∧ i < node.endIdx ∧
          (tp, pr.2) ∈ tw ∧ pr.1 = kd.order.getD i 0 ∧
          l2Dist2 (kd.points.getD i []) tp ≤ radius * radius) ∧
        (∀ i, node.startIdx ≤ i → i < node.endIdx →
          ∀ tp tj, (tp, tj) ∈ tw →
            l2Dist2 (kd.points.getD i []) tp ≤ radius * radius →
            (kd.order.getD i 0, tj) ∈ new) ∧
        ((tw.map Prod.snd).Nodup → kd.order.Nodup → new.Nodup) := by
  intro node
  induction node with
  | leaf mn mx s e =>
      intro hwf tw edges htwD
      obtain ⟨hse, hepts, hbox⟩ := hwf
      have hmemrem : ∀ i, s ≤ i → i < e → ∀ tp tj, (tp, tj) ∈ tw →
          l2Dist2 (kd.points.getD i []) tp ≤ radius * radius →
          (tp, tj) ∈ tw.filter (fun tp =>
            radiusIntersectWithBoundingBox tp.1 (KDNode.leaf mn mx s e).maxC
              (KDNode.leaf mn mx s e).minC radius (radius * radius)) := by
        intro i hi1 hi2 tp tj htw hd
        refine List.mem_filter.mpr ⟨htw, ?_⟩
        simp only [KDNode.maxC, KDNode.minC]
        refine radiusIntersect_complete tp mx mn (kd.points.getD i []) radius hr
          (hbox i hi1 hi2) ?_ ?_
        · have h1 : tp.length = D := htwD (tp, tj) htw
          have h2 : (kd.points.getD i []).length = D :=
            hptD _ (getD_mem_of_lt [] kd.points i (by omega))
          omega
        · rw [l2Dist2_comm]
          exact hd
      rw [radiusEdgesRecursiveImpl]
      simp only [KDNode.maxC, KDNode.minC] at hmemrem ⊢
      simp only [KDNode.startIdx, KDNode.endIdx]
      by_cases hemp : (tw.filter (fun tp =>
          radiusIntersectWithBoundingBox tp.1 mx mn radius (radius * radius))).isEmpty
      · rw [if_pos hemp]
        refine ⟨[], by simp, by simp, ?_, by simp⟩
        intro i hi1 hi2 tp tj htw hd
        exfalso
        have := hmemrem i hi1 hi2 tp tj htw hd
        rw [List.isEmpty_iff.mp hemp] at this
        simp at this
      · rw [if_neg hemp]
        refine ⟨_, rfl, ?_, ?_, ?_⟩
        · -- soundness at a leaf
          intro pr hpr
          rcases List.mem_flatMap.mp hpr with ⟨i, hi, hfi⟩
          rcases List.mem_range'_1.mp hi with ⟨hi1, hi2⟩
          rcases List.mem_filterMap.mp hfi with ⟨tp, htp, heq⟩
          by_cases hp : l2Dist2 (kd.points.getD i []) tp.1 ≤ radius * radius
          · rw [if_pos hp] at heq
            cases heq
            refine ⟨i, tp.1, hi1, by omega, ?_, rfl, hp⟩
            have : tp ∈ tw := List.mem_of_mem_filter htp
            simpa [Prod.mk.eta] using this
          · rw [if_neg hp] at heq
            cases heq
        · -- completeness at a leaf
          intro i hi1 hi2 tp tj htw hd
          refine List.mem_flatMap.mpr ⟨i, ?_, ?_⟩
          · exact List.mem_range'_1.mpr ⟨hi1, by omega⟩
          · refine List.mem_filterMap.mpr ⟨(tp, tj), hmemrem i hi1 hi2 tp tj htw hd, ?_⟩
            rw [if_pos hd]
        · -- no duplicate edges at a leaf
          intro htwnd hordnd
          rw [List.nodup_flatMap]
          constructor
          · intro i _
            refine nodup_filterMap_pair (kd.order.getD i 0)
              (fun tp => l2Dist2 (kd.points.getD i []) tp.1 ≤ radius * radius) _ ?_
            exact ((List.filter_sublist tw).map Prod.snd).nodup htwnd
          · refine List.Pairwise.imp_of_mem ?_ (List.pairwise_lt_range' s (e - s))
            intro i j hi hj hij pr hpri hprj
            rcases List.mem_range'_1.mp hi with ⟨hi1, hi2⟩
            rcases List.mem_range'_1.mp hj with ⟨hj1, hj2⟩
            have h1 := (mem_filterMap_pair hpri).1
            have h2 := (mem_filterMap_pair hprj).1
            have : kd.order.getD i 0 ≠ kd.order.getD j 0 := by
              refine order_getD_inj kd hordnd ?_ ?_ (by omega)
              · omega
              · omega
            rw [h1] at h2
            exact this h2
  | node mn mx s e ax v l r ihl ihr =>
      intro hwf tw edges htwD
      obtain ⟨hse, hepts, hbox, hls, hle, hre, hlt1, hlt2, hkeyl, hkeyr, hwl, hwr⟩ := hwf
      have hmemrem : ∀ i, s ≤ i → i < e → ∀ tp tj, (tp, tj) ∈ tw →
          l2Dist2 (kd.points.getD i []) tp ≤ radius * radius →
          (tp, tj) ∈ tw.filter (fun tp =>
            radiusIntersectWithBoundingBox tp.1 mx mn radius (radius * radius)) := by
        intro i hi1 hi2 tp tj htw hd
        refine List.mem_filter.mpr ⟨htw, ?_⟩
        refine radiusIntersect_complete tp mx mn (kd.points.getD i []) radius hr
          (hbox i hi1 hi2) ?_ ?_
        · have h1 : tp.length = D := htwD (tp, tj) htw
          have h2 : (kd.points.getD i []).length = D :=
            hptD _ (getD_mem_of_lt [] kd.points i (by omega))
          omega
        · rw [l2Dist2_comm]
          exact hd
      rw [radiusEdgesRecursiveImpl]
      simp only [KDNode.maxC, KDNode.minC] at hmemrem ⊢
      by_cases hemp : (tw.filter (fun tp =>
          radiusIntersectWithBoundingBox tp.1 mx mn radius (radius * radius))).isEmpty
      · rw [if_pos hemp]
        refine ⟨[], by simp, by simp, ?_, by simp⟩
        intro i hi1 hi2 tp tj htw hd
        exfalso
        have := hmemrem i hi1 hi2 tp tj htw hd
        rw [List.isEmpty_iff.mp hemp] at this
        simp at this
      · rw [if_neg hemp]
        set remaining := tw.filter (fun tp =>
          radiusIntersectWithBoundingBox tp.1 mx mn radius (radius * radius)) with hremdef
        have htwD' : ∀ p ∈ remaining, p.1.length = D := by
          intro p hp
          exact htwD p (List.mem_of_mem_filter hp)
        rcases ihl hwl remaining edges htwD' with ⟨newL, heqL, hsoundL, hcompL, hndL⟩
        have hkd1 : (radiusEdgesRecursiveImpl kd l remaining radius (radius * radius) edges).1
            = kd := radiusEdgesRecursiveImpl_readonly l kd remaining radius (radius * radius) edges
        rw [hkd1, heqL]
        rcases ihr hwr remaining (edges ++ newL) htwD' with ⟨newR, heqR, hsoundR, hcompR, hndR⟩
        rw [heqR]
        have hsubsnd : (remaining.map Prod.snd).Sublist (tw.map Prod.snd) :=
          (List.filter_sublist tw).map Prod.snd
        refine ⟨newL ++ newR, by rw [List.append_assoc], ?_, ?_, ?_⟩
        · -- soundness
          intro pr hpr
          rcases List.mem_append.mp hpr with h | h
          · rcases hsoundL pr h with ⟨i, tp, hi1, hi2, htp, hfst, hd⟩
            refine ⟨i, tp, ?_, ?_, List.mem_of_mem_filter htp, hfst, hd⟩
            · simp only [KDNode.startIdx]
              omega
            · simp only [KDNode.endIdx]
              omega
          · rcases hsoundR pr h with ⟨i, tp, hi1, hi2, htp, hfst, hd⟩
            refine ⟨i, tp, ?_, ?_, List.mem_of_mem_filter htp, hfst, hd⟩
            · simp only [KDNode.startIdx]
              omega
            · simp only [KDNode.endIdx]
              omega
        · -- completeness
          intro i hi1 hi2 tp tj htw hd
          simp only [KDNode.startIdx] at hi1
          simp only [KDNode.endIdx] at hi2
          have hrem : (tp, tj) ∈ remaining := hmemrem i hi1 hi2 tp tj htw hd
          by_cases hcase : i < l.endIdx
          · refine List.mem_append.mpr (Or.inl ?_)
            exact hcompL i (by omega) hcase tp tj hrem hd
          · refine List.mem_append.mpr (Or.inr ?_)
            refine hcompR i ?_ ?_ tp tj hrem hd
            · omega
            · omega
        · -- nodup
          intro htwnd hordnd
          have hremnd : (remaining.map Prod.snd).Nodup := hsubsnd.nodup htwnd
          refine List.Nodup.append (hndL hremnd hordnd) (hndR hremnd hordnd) ?_
          intro pr hprL hprR
          rcases hsoundL pr hprL with ⟨i1, tp1, hi11, hi12, _, hfst1, _⟩
          rcases hsoundR pr hprR with ⟨i2, tp2, hi21, hi22, _, hfst2, _⟩
          have hne : i1 ≠ i2 := by omega
          have : kd.order.getD i1 0 ≠ kd.order.getD i2 0 := by
            refine order_getD_inj kd hordnd ?_ ?_ hne
            · omega
            · omega
          rw [hfst1] at hfst2
          exact this hfst2

theorem getD_mem_zip_range (T : List Pt) (M t : ℕ) (hTlen : T.length = M) (ht : t < M) :
    (T.getD t [], t) ∈ T.zip (List.range M) := by
  have hb : t < (T.zip (List.range M)).length := by
    simp [List.length_zip, hTlen]
    omega
  refine List.mem_iff_getElem.mpr ⟨t, hb, ?_⟩
  rw [List.getElem_zip]
  refine Prod.ext ?_ ?_
  · exact (List.getD_eq_getElem T [] (by omega)).symm
  · simp [List.getElem_range]

theorem radiusEdgesImpl_spec (source target : List ℚ) (D : ℕ) (radius : ℚ)
    (hD : 1 ≤ D) (hsrc : source ≠ []) (hsdvd : D ∣ source.length)
    (htdvd : D ∣ target.length) (hr : 0 ≤ radius) :
    ∃ edges, radiusEdgesImpl source target D radius = Except.ok edges ∧
      (∀ pr ∈ edges, pr.1 < source.length / D ∧ pr.2 < target.length / D ∧
        l2Dist2 ((chunkPoints D source).getD pr.1 []) ((chunkPoints D target).getD pr.2 [])
          ≤ radius * radius) ∧
      (∀ s, s < source.length / D → ∀ t, t < target.length / D →
        l2Dist2 ((chunkPoints D source).getD s []) ((chunkPoints D target).getD t [])
          ≤ radius * radius → (s, t) ∈ edges) ∧
      edges.Nodup := by
  have hD0 : D ≠ 0 := by omega
  have hmod : (source.length : ℤ) % (D : ℤ) = 0 := by
    rcases hsdvd with ⟨k, hk⟩
    simp [hk]
  rcases NewKDTree_spec source (D : ℤ) 16 hsrc (by omega) hmod (by omega) with ⟨kd, hok, hwf⟩
  have htD : ((D : ℤ)).toNat = D := Int.toNat_natCast D
  rw [htD] at hwf
  obtain ⟨hdim, hnum, hplen, holen, hperm, hpoint, hptD, hroots, hroote, hgwf⟩ := hwf
  set S := chunkPoints D source with hS
  set T := chunkPoints D target with hT
  set N := source.length / D with hN
  set M := target.length / D with hM
  have hSlen : S.length = N := chunkPoints_length D source hD0 hsdvd
  have hTlen : T.length = M := chunkPoints_length D target hD0 htdvd
  have hTmem : ∀ p ∈ T, p.length = D := chunkPoints_mem_length D target hD0 htdvd
  have hordnd : kd.order.Nodup := hperm.nodup_iff.mpr (List.nodup_range _)
  have horder_lt : ∀ i, i < kd.order.length → kd.order.getD i 0 < S.length := by
    intro i hi
    have hmem : kd.order.getD i 0 ∈ kd.order := getD_mem_of_lt 0 kd.order i hi
    have := hperm.mem_iff.mp hmem
    rw [List.mem_range] at this
    omega
  rw [radiusEdgesImpl, hok]
  simp only []
  set tw := T.zip (List.range M) with htw
  have htwD : ∀ p ∈ tw, p.1.length = D := by
    intro p hp
    have := (List.of_mem_zip hp).1
    exact hTmem p.1 this
  have htwchar : ∀ p ∈ tw, p.2 < M ∧ p.1 = T.getD p.2 [] := by
    intro p hp
    have hp' : p ∈ T.zip (List.range T.length) := by
      rw [hTlen]
      exact hp
    have h := mem_zip_range hp'
    rw [hTlen] at h
    exact h
  rcases radiusRec_spec kd D radius hptD (by omega) hr kd.root hgwf tw [] htwD with
    ⟨new, heq, hsound, hcomp, hnd⟩
  rw [heq]
  simp only [List.nil_append]
  have hrootS : kd.root.startIdx = 0 := hroots
  have hrootE : kd.root.endIdx = S.length := hroote
  refine ⟨new, rfl, ?_, ?_, ?_⟩
  · -- translated soundness
    intro pr hpr
    rcases hsound pr hpr with ⟨i, tp, hi1, hi2, htp, hfst, hd⟩
    rw [hrootE] at hi2
    have hiN : i < S.length := hi2
    have hfst_lt : pr.1 < N := by
      have := horder_lt i (by omega)
      rw [← hfst] at this
      omega
    rcases htwchar (tp, pr.2) htp with ⟨hsnd_lt, htp_eq⟩
    refine ⟨hfst_lt, hsnd_lt, ?_⟩
    have hpts : kd.points.getD i [] = S.getD (kd.order.getD i 0) [] := hpoint i (by omega)
    rw [← hfst] at hpts
    rw [← hpts]
    simp only at htp_eq
    rw [← htp_eq]
    exact hd
  · -- translated completeness
    intro s hs t ht hd
    have hsS : s ∈ kd.order := by
      refine hperm.mem_iff.mpr ?_
      rw [List.mem_range]
      omega
    rcases List.mem_iff_getElem.mp hsS with ⟨i, hilt, higet⟩
    have hgetD : kd.order.getD i 0 = s := by
      rw [List.getD_eq_getElem _ _ hilt]
      exact higet
    have htwmem : (T.getD t [], t) ∈ tw := getD_mem_zip_range T M t hTlen ht
    have hi2 : i < kd.root.endIdx := by
      rw [hrootE]
      omega
    have hptseq : kd.points.getD i [] = S.getD s [] := by
      have := hpoint i (by omega)
      rw [hgetD] at this
      exact this
    have := hcomp i (by rw [hrootS]; omega) hi2 (T.getD t []) t htwmem
      (by rw [hptseq]; exact hd)
    rw [hgetD] at this
    exact this
  · -- no duplicates
    refine hnd ?_ hordnd
    rw [htw]
    rw [List.map_snd_zip T (List.range M) (by rw [hTlen]; simp)]
    exact List.nodup_range M

theorem RadiusEdgesDone_spec (source target : List ℚ) (D : ℕ) (radius : ℚ)
    (hD : 1 ≤ D) (hsrc : source ≠ []) (hsdvd : D ∣ source.length)
    (htdvd : D ∣ target.length) (hr : 0 ≤ radius)
    (hpair : ∃ s, s < source.length / D ∧ ∃ t, t < target.length / D ∧
      l2Dist2 ((chunkPoints D source).getD s []) ((chunkPoints D target).getD t [])
        ≤ radius * radius) :
    ∃ edges, RadiusEdgesDone source D target D radius = Except.ok edges ∧
      (∀ pr ∈ edges, pr.1 < source.length / D ∧ pr.2 < target.length / D ∧
        l2Dist2 ((chunkPoints D source).getD pr.1 []) ((chunkPoints D target).getD pr.2 [])
          ≤ radius * radius) ∧
      (∀ s, s < source.length / D → ∀ t, t < target.length / D →
        l2Dist2 ((chunkPoints D source).getD s []) ((chunkPoints D target).getD t [])
          ≤ radius * radius → (s, t) ∈ edges) ∧
      edges.Nodup := by
  rcases radiusEdgesImpl_spec source target D radius hD hsrc hsdvd htdvd hr with
    ⟨edges, himpl, hsound, hcomp, hnd⟩
  rcases hpair with ⟨s, hs, t, ht, hd⟩
  have hmem : (s, t) ∈ edges := hcomp s hs t ht hd
  have hne : edges.length ≠ 0 := by
    intro h0
    rw [List.length_eq_zero] at h0
    rw [h0] at hmem
    simp at hmem
  rw [RadiusEdgesDone, if_neg (by omega), himpl]
  simp only [if_neg hne]
  exact ⟨edges, rfl, hsound, hcomp, hnd⟩

theorem RadiusEdgesDone_noEdges (source target : List ℚ) (D : ℕ) (radius : ℚ)
    (hD : 1 ≤ D) (hsrc : source ≠ []) (hsdvd : D ∣ source.length)
    (htdvd : D ∣ target.length) (hr : 0 ≤ radius)
    (hnone : ∀ s, s < source.length / D → ∀ t, t < target.length / D →
      ¬ l2Dist2 ((chunkPoints D source).getD s []) ((chunkPoints D target).getD t [])
        ≤ radius * radius) :
    RadiusEdgesDone source D target D radius = Except.error GeomError.noEdgesFound := by
  rcases radiusEdgesImpl_spec source target D radius hD hsrc hsdvd htdvd hr with
    ⟨edges, himpl, hsound, hcomp, hnd⟩
  have hempty : edges = [] := by
    cases hedges : edges with
    | nil => rfl
    | cons pr rest =>
        exfalso
        have hpr : pr ∈ edges := by rw [hedges]; simp
        rcases hsound pr hpr with ⟨h1, h2, h3⟩
        exact hnone pr.1 h1 pr.2 h2 h3
  rw [RadiusEdgesDone, if_neg (by omega), himpl, hempty]
  simp

theorem RadiusEdgesDone_ok_ne_nil (source : List ℚ) (sourceDim : ℕ) (target : List ℚ)
    (targetDim : ℕ) (radius : ℚ) (edges : List (ℕ × ℕ))
    (h : RadiusEdgesDone source sourceDim target targetDim radius = Except.ok edges) :
    edges ≠ [] := by
  rw [RadiusEdgesDone] at h
  by_cases hdim : sourceDim ≠ targetDim
  · rw [if_pos hdim] at h
    cases h
  · rw [if_neg hdim] at h
    split at h
    · cases h
    · split at h
      · cases h
      · cases h
        rename_i hlen
        intro hnil
        rw [hnil] at hlen
        simp at hlen

/-! ### Nearest query: best-match recursion invariants -/

theorem leafScanAux (kd : KDTree) (point : Pt) :
    ∀ (L : List ℕ) (b : ℤ × ℚ),
      (L.foldl (fun b i =>
        let d2 := l2Dist2 point (kd.points.getD i [])
        if d2 < b.2 then ((i : ℤ), d2) else b) b).2 ≤ b.2 ∧
      ((L.foldl (fun b i =>
        let d2 := l2Dist2 point (kd.points.getD i [])
        if d2 < b.2 then ((i : ℤ), d2) else b) b) = b ∨
        ∃ i ∈ L, (L.foldl (fun b i =>
          let d2 := l2Dist2 point (kd.points.getD i [])
          if d2 < b.2 then ((i : ℤ), d2) else b) b).1 = (i : ℤ) ∧
          (L.foldl (fun b i =>
            let d2 := l2Dist2 point (kd.points.getD i [])
            if d2 < b.2 then ((i : ℤ), d2) else b) b).2
            = l2Dist2 point (kd.points.getD i []) ∧
          (L.foldl (fun b i =>
            let d2 := l2Dist2 point (kd.points.getD i [])
            if d2 < b.2 then ((i : ℤ), d2) else b) b).2 < b.2) ∧
      (∀ i ∈ L, (L.foldl (fun b i =>
        let d2 := l2Dist2 point (kd.points.getD i [])
        if d2 < b.2 then ((i : ℤ), d2) else b) b).2 ≤ l2Dist2 point (kd.points.getD i [])) := by
  intro L
  induction L with
  | nil =>
      intro b
      refine ⟨le_refl _, Or.inl rfl, ?_⟩
      intro i hi
      simp at hi
  | cons i0 L' ih =>
      intro b
      simp only [List.foldl_cons]
      by_cases hc : l2Dist2 point (kd.points.getD i0 []) < b.2
      · rw [if_pos hc]
        rcases ih ((i0 : ℤ), l2Dist2 point (kd.points.getD i0 [])) with ⟨h1, h2, h3⟩
        refine ⟨?_, ?_, ?_⟩
        · simp only at h1
          linarith
        · rcases h2 with h2 | ⟨i, hiL, hifst, hisnd, hilt⟩
          · refine Or.inr ⟨i0, by simp, ?_, ?_, ?_⟩
            · rw [h2]
            · rw [h2]
            · rw [h2]
              exact hc
          · refine Or.inr ⟨i, by simp [hiL], hifst, hisnd, ?_⟩
            simp only at hilt
            linarith
        · intro i hi
          rcases List.mem_cons.mp hi with rfl | hi'
          · simpa using h1
          · exact h3 i hi'
      · rw [if_neg hc]
        rcases ih b with ⟨h1, h2, h3⟩
        refine ⟨h1, ?_, ?_⟩
        · rcases h2 with h2 | ⟨i, hiL, hrest⟩
          · exact Or.inl h2
          · exact Or.inr ⟨i, by simp [hiL], hrest⟩
        · intro i hi
          rcases List.mem_cons.mp hi with rfl | hi'
          · push_neg at hc
            linarith
          · exact h3 i hi'

theorem leafScan_spec (kd : KDTree) (point : Pt) (s e : ℕ) (best : ℤ × ℚ) :
    (leafScan kd point s e best).2 ≤ best.2 ∧
    (leafScan kd point s e best = best ∨
      ∃ i, s ≤ i ∧ i < e ∧ (leafScan kd point s e best).1 = (i : ℤ) ∧
        (leafScan kd point s e best).2 = l2Dist2 point (kd.points.getD i []) ∧
        (leafScan kd point s e best).2 < best.2) ∧
    (∀ i, s ≤ i → i < e → (leafScan kd point s e best).2
      ≤ l2Dist2 point (kd.points.getD i [])) := by
  rcases leafScanAux kd point (List.range' s (e - s)) best with ⟨h1, h2, h3⟩
  rw [leafScan]
  refine ⟨h1, ?_, ?_⟩
  · rcases h2 with h2 | ⟨i, hiL, hrest⟩
    · exact Or.inl h2
    · rcases List.mem_range'_1.mp hiL with ⟨hi1, hi2⟩
      exact Or.inr ⟨i, hi1, by omega, hrest⟩
  · intro i hi1 hi2
    refine h3 i ?_
    refine List.mem_range'_1.mpr ⟨hi1, ?_⟩
    omega

theorem findNearestRec_spec (kd : KDTree) (D : ℕ) (point : Pt)
    (hptD : ∀ p ∈ kd.points, p.length = D) (hq : point.length = D) :
    ∀ node : KDNode, GNodeWF kd.points node → ∀ best : ℤ × ℚ,
      ((findNearestRecursive kd node point best).2).2 ≤ best.2 ∧
      ((findNearestRecursive kd node point best).2 = best ∨
        ∃ i, node.startIdx ≤ i ∧ i < node.endIdx ∧
          ((findNearestRecursive kd node point best).2).1 = (i : ℤ) ∧
          ((findNearestRecursive kd node point best).2).2
            = l2Dist2 point (kd.points.getD i []) ∧
          ((findNearestRecursive kd node point best).2).2 < best.2) ∧
      (∀ i, node.startIdx ≤ i → i < node.endIdx →
        ((findNearestRecursive kd node point best).2).2
          ≤ l2Dist2 point (kd.points.getD i [])) := by
  intro node
  induction node with
  | leaf mn mx s e =>
      intro hwf best
      rw [findNearestRecursive]
      simp only [KDNode.startIdx, KDNode.endIdx]
      exact leafScan_spec kd point s e best
  | node mn mx s e ax v l r ihl ihr =>
      intro hwf best
      obtain ⟨hse, hepts, hbox, hls, hle, hre, hlt1, hlt2, hkeyl, hkeyr, hwl, hwr⟩ := hwf
      have haxle : ∀ i, i < e →
          (point.getD ax 0 - (kd.points.getD i []).getD ax 0)
            * (point.getD ax 0 - (kd.points.getD i []).getD ax 0)
            ≤ l2Dist2 point (kd.points.getD i []) := by
        intro i hi
        refine l2Dist2_axis_le point (kd.points.getD i []) ?_ ax
        have : (kd.points.getD i []).length = D :=
          hptD _ (getD_mem_of_lt [] kd.points i (by omega))
        omega
      rw [findNearestRecursive]
      simp only [KDNode.startIdx, KDNode.endIdx]
      by_cases hdir : point.getD ax 0 < v
      · rw [if_pos hdir]
        have hp1kd : (findNearestRecursive kd l point best).1 = kd :=
          findNearestRecursive_readonly l kd point best
        rw [hp1kd]
        rcases ihl hwl best with ⟨h1l, h2l, h3l⟩
        by_cases hprune : (point.getD ax 0 - v) * (point.getD ax 0 - v)
            < ((findNearestRecursive kd l point best).2).2
        · rw [if_pos hprune]
          rcases ihr hwr ((findNearestRecursive kd l point best).2) with ⟨h1r, h2r, h3r⟩
          refine ⟨le_trans h1r h1l, ?_, ?_⟩
          · rcases h2r with h2r | ⟨i, hi1, hi2, hrest⟩
            · rw [h2r]
              rcases h2l with h2l | ⟨i, hi1, hi2, hrest⟩
              · exact Or.inl h2l
              · refine Or.inr ⟨i, ?_, ?_, hrest⟩
                · omega
                · omega
            · refine Or.inr ⟨i, ?_, ?_, hrest.1, hrest.2.1, lt_of_lt_of_le hrest.2.2 h1l⟩
              · omega
              · omega
          · intro i hi1 hi2
            by_cases hcase : i < l.endIdx
            · refine le_trans h1r ?_
              refine h3l i ?_ ?_
              · omega
              · omega
            · refine h3r i ?_ ?_
              · omega
              · omega
        · rw [if_neg hprune]
          push_neg at hprune
          refine ⟨h1l, ?_, ?_⟩
          · rcases h2l with h2l | ⟨i, hi1, hi2, hrest⟩
            · exact Or.inl h2l
            · refine Or.inr ⟨i, ?_, ?_, hrest⟩
              · omega
              · omega
          · intro i hi1 hi2
            by_cases hcase : i < l.endIdx
            · refine h3l i ?_ ?_
              · omega
              · omega
            · -- pruned far child: split-plane distance is a lower bound
              have hv : v ≤ (kd.points.getD i []).getD ax 0 := by
                refine hkeyr i ?_ ?_
                · omega
                · omega
              have hax := haxle i (by omega)
              refine le_trans (le_trans hprune ?_) hax
              nlinarith [mul_nonneg (sub_nonneg.mpr hv)
                (by linarith : (0:ℚ) ≤ (kd.points.getD i []).getD ax 0 + v
                  - 2 * point.getD ax 0)]
      · rw [if_neg hdir]
        push_neg at hdir
        have hp1kd : (findNearestRecursive kd r point best).1 = kd :=
          findNearestRecursive_readonly r kd point best
        rw [hp1kd]
        rcases ihr hwr best with ⟨h1r, h2r, h3r⟩
        by_cases hprune : (point.getD ax 0 - v) * (point.getD ax 0 - v)
            < ((findNearestRecursive kd r point best).2).2
        · rw [if_pos hprune]
          rcases ihl hwl ((findNearestRecursive kd r point best).2) with ⟨h1l, h2l, h3l⟩
          refine ⟨le_trans h1l h1r, ?_, ?_⟩
          · rcases h2l with h2l | ⟨i, hi1, hi2, hrest⟩
            · rw [h2l]
              rcases h2r with h2r | ⟨i, hi1, hi2, hrest⟩
              · exact Or.inl h2r
              · refine Or.inr ⟨i, ?_, ?_, hrest⟩
                · omega
                · omega
            · refine Or.inr ⟨i, ?_, ?_, hrest.1, hrest.2.1, lt_of_lt_of_le hrest.2.2 h1r⟩
              · omega
              · omega
          · intro i hi1 hi2
            by_cases hcase : i < l.endIdx
            · refine h3l i ?_ ?_
              · omega
              · omega
            · refine le_trans h1l ?_
              refine h3r i ?_ ?_
              · omega
              · omega
        · rw [if_neg hprune]
          push_neg at hprune
          refine ⟨h1r, ?_, ?_⟩
          · rcases h2r with h2r | ⟨i, hi1, hi2, hrest⟩
            · exact Or.inl h2r
            · refine Or.inr ⟨i, ?_, ?_, hrest⟩
              · omega
              · omega
          · intro i hi1 hi2
            by_cases hcase : i < l.endIdx
            · -- pruned far child on the left side
              have hv : (kd.points.getD i []).getD ax 0 < v := by
                refine hkeyl i ?_ hcase
                omega
              have hax := haxle i (by omega)
              refine le_trans (le_trans hprune ?_) hax
              nlinarith [mul_nonneg (le_of_lt (sub_pos.mpr hv))
                (by linarith : (0:ℚ) ≤ 2 * point.getD ax 0
                  - (kd.points.getD i []).getD ax 0 - v)]
            · refine h3r i ?_ ?_
              · omega
              · omega

theorem findNearestRoot_spec (kd : KDTree) (D : ℕ) (orig : List Pt) (point : Pt)
    (maxValue : ℚ) (hwf : KDTreeWF D orig kd) (hq : point.length = D)
    (hreach : ∃ j, j < orig.length ∧ l2Dist2 point (orig.getD j []) < maxValue) :
    ∃ i, i < orig.length ∧
      ((findNearestRecursive kd kd.root point (-1, maxValue)).2).1 = (i : ℤ) ∧
      (findNearest kd point maxValue).2 = some (kd.order.getD i 0) ∧
      kd.order.getD i 0 < orig.length ∧
      (∀ k, k < orig.length →
        l2Dist2 point (orig.getD (kd.order.getD i 0) [])
          ≤ l2Dist2 point (orig.getD k [])) := by
  obtain ⟨hdim, hnum, hplen, holen, hperm, hpoint, hptD, hroots, hroote, hgwf⟩ := hwf
  have hindex : ∀ j, j < orig.length → ∃ i, i < orig.length ∧ kd.order.getD i 0 = j := by
    intro j hj
    have hmem : j ∈ kd.order := by
      refine hperm.mem_iff.mpr ?_
      rw [List.mem_range]
      omega
    rcases List.mem_iff_getElem.mp hmem with ⟨i, hi, hget⟩
    refine ⟨i, by omega, ?_⟩
    rw [List.getD_eq_getElem _ _ hi]
    exact hget
  rcases hreach with ⟨j, hj, hjlt⟩
  rcases hindex j hj with ⟨i0, hi0, hi0get⟩
  have hpts0 : kd.points.getD i0 [] = orig.getD j [] := by
    have := hpoint i0 hi0
    rw [hi0get] at this
    exact this
  rcases findNearestRec_spec kd D point hptD hq kd.root hgwf (-1, maxValue) with ⟨h1, h2, h3⟩
  have hmin0 : ((findNearestRecursive kd kd.root point (-1, maxValue)).2).2
      ≤ l2Dist2 point (orig.getD j []) := by
    rw [← hpts0]
    refine h3 i0 ?_ ?_
    · omega
    · omega
  have hlt : ((findNearestRecursive kd kd.root point (-1, maxValue)).2).2 < maxValue :=
    lt_of_le_of_lt hmin0 hjlt
  rcases h2 with h2 | ⟨i, hi1, hi2, hfst, hsnd, _⟩
  · exfalso
    rw [h2] at hlt
    simp at hlt
  · have hiN : i < orig.length := by omega
    have hordmem : kd.order.getD i 0 ∈ kd.order := getD_mem_of_lt 0 kd.order i (by omega)
    have hordlt : kd.order.getD i 0 < orig.length := by
      have := hperm.mem_iff.mp hordmem
      rw [List.mem_range] at this
      omega
    refine ⟨i, hiN, hfst, ?_, hordlt, ?_⟩
    · rw [findNearest]
      simp only []
      rw [findNearestRecursive_readonly kd.root kd point (-1, maxValue)]
      rw [hfst]
      rw [if_neg ?_]
      · simp [Int.toNat_natCast]
      · push_neg
        constructor
        · omega
        · rw [holen]
          omega
  -- the returned original index minimises the distance over all originals
    · intro k hk
      rcases hindex k hk with ⟨ik, hik, hikget⟩
      have hptsk : kd.points.getD ik [] = orig.getD k [] := by
        have := hpoint ik hik
        rw [hikget] at this
        exact this
      have hminik : ((findNearestRecursive kd kd.root point (-1, maxValue)).2).2
          ≤ l2Dist2 point (orig.getD k []) := by
        rw [← hptsk]
        refine h3 ik ?_ ?_
        · omega
        · omega
      have hptsi : kd.points.getD i [] = orig.getD (kd.order.getD i 0) [] := hpoint i hiN
      rw [← hptsi, ← hsnd]
      exact hminik

theorem nearestEdgesImpl_spec (source target : List ℚ) (D : ℕ) (maxValue : ℚ)
    (hD : 1 ≤ D) (htgt : target ≠ []) (htdvd : D ∣ target.length)
    (hreach : ∀ i, i < source.length / D →
      ∃ j, j < target.length / D ∧
        l2Dist2 ((source.drop (i * D)).take D) ((chunkPoints D target).getD j [])
          < maxValue) :
    ∃ es, nearestEdgesImpl source target D maxValue = Except.ok es ∧
      es.length = source.length / D ∧
      ∀ i, i < source.length / D →
        (es.getD i (0, none)).1 = i ∧
        ∃ j, (es.getD i (0, none)).2 = some j ∧ j < target.length / D ∧
          ∀ k, k < target.length / D →
            l2Dist2 ((source.drop (i * D)).take D) ((chunkPoints D target).getD j [])
              ≤ l2Dist2 ((source.drop (i * D)).take D) ((chunkPoints D target).getD k []) := by
  have hD0 : D ≠ 0 := by omega
  have hmod : (target.length : ℤ) % (D : ℤ) = 0 := by
    rcases htdvd with ⟨k, hk⟩
    simp [hk]
  rcases NewKDTree_spec target (D : ℤ) 16 htgt (by omega) hmod (by omega) with ⟨kd, hok, hwf⟩
  rw [Int.toNat_natCast] at hwf
  set T := chunkPoints D target with hT
  set M := target.length / D with hM
  set ns := source.length / D with hns
  have hTlen : T.length = M := chunkPoints_length D target hD0 htdvd
  have hsrclen : ∀ i, i < ns → ((source.drop (i * D)).take D).length = D := by
    intro i hi
    have hmul : (i + 1) * D ≤ source.length := by
      have : i + 1 ≤ source.length / D := by omega
      calc (i + 1) * D ≤ (source.length / D) * D := Nat.mul_le_mul_right D this
        _ ≤ source.length := Nat.div_mul_le_self _ _
    simp only [List.length_take, List.length_drop]
    have : (i + 1) * D = i * D + D := by ring
    omega
  rw [nearestEdgesImpl, hok]
  simp only []
  refine ⟨_, rfl, by simp, ?_⟩
  intro i hi
  have hilt : i < (List.range ns).length := by simpa using hi
  have hilt2 : i < ((List.range ns).map (fun i =>
      (i, (findNearest kd ((source.drop (i * D)).take D) maxValue).2))).length := by
    simpa using hi
  have hgetD : ((List.range ns).map (fun i =>
      (i, (findNearest kd ((source.drop (i * D)).take D) maxValue).2))).getD i (0, none)
      = (i, (findNearest kd ((source.drop (i * D)).take D) maxValue).2) := by
    rw [List.getD_eq_getElem _ _ hilt2, List.getElem_map]
    simp [List.getElem_range]
  rw [hgetD]
  refine ⟨rfl, ?_⟩
  have hreach' : ∃ j, j < T.length ∧
      l2Dist2 ((source.drop (i * D)).take D) (T.getD j []) < maxValue := by
    rcases hreach i hi with ⟨j, hj, hjd⟩
    exact ⟨j, by omega, hjd⟩
  rcases findNearestRoot_spec kd D T ((source.drop (i * D)).take D) maxValue
    ⟨hwf.1, hwf.2.1, hwf.2.2.1, hwf.2.2.2.1, hwf.2.2.2.2.1, hwf.2.2.2.2.2.1,
      hwf.2.2.2.2.2.2.1, hwf.2.2.2.2.2.2.2.1, hwf.2.2.2.2.2.2.2.2.1,
      hwf.2.2.2.2.2.2.2.2.2⟩
    (hsrclen i hi) hreach' with ⟨i0, hi0N, _, hsome, hordlt, hmin⟩
  refine ⟨kd.order.getD i0 0, hsome, by omega, ?_⟩
  intro k hk
  exact hmin k (by omega)

/-! ### Concrete evaluation helpers and small corollaries -/

theorem findNearest_readonly (kd : KDTree) (point : Pt) (maxValue : ℚ) :
    (findNearest kd point maxValue).1 = kd := by
  rw [findNearest]
  exact findNearestRecursive_readonly kd.root kd point (-1, maxValue)

theorem radiusEdgesImpl_ok (source target : List ℚ) (D : ℕ) (radius : ℚ)
    (hD : 1 ≤ D) (hsrc : source ≠ []) (hsdvd : D ∣ source.length) :
    ∃ edges, radiusEdgesImpl source target D radius = Except.ok edges := by
  have hmod : (source.length : ℤ) % (D : ℤ) = 0 := by
    rcases hsdvd with ⟨k, hk⟩
    simp [hk]
  rcases NewKDTree_spec source (D : ℤ) 16 hsrc (by omega) hmod (by omega) with ⟨kd, hok, _⟩
  rw [radiusEdgesImpl, hok]
  exact ⟨_, rfl⟩

theorem buildNode_singlePoint :
    buildNode 1 (Int.toNat 16) 0 [([0], 0)] = ([([0], 0)], KDNode.leaf [0] [0] 0 1) := by
  rw [show (Int.toNat 16) = 16 from rfl]
  rw [buildNode]
  norm_num
  exact ⟨rfl, rfl⟩

theorem newKDTree_singlePoint : (NewKDTree [0] ((1 : ℕ) : ℤ) 16).2
    = Except.ok ⟨[[0]], 1, 1, [0], KDNode.leaf [0] [0] 0 1⟩ := by
  have hz : ((chunkPoints 1 [0]).zip (List.range ((1 : ℕ) / 1))) = [([(0 : ℚ)], 0)] := by
    norm_num [chunkPoints, List.range_succ, List.zip, List.zipWith]
  rw [NewKDTree]
  norm_num [hz, buildNode_singlePoint]

/-! ### The claims -/

/-- C3: for every successfully built `SpatialIndex` over `N` points, the
`Order` array is a bijection on `[0, N)` (a permutation of `range N`), and
construction round-trips: placing the point stored at tree position `i` back
at position `Order[i]` of a fresh buffer (`reconstructOriginal`) rebuilds the
caller-supplied input, chunked into its `N` points, exactly. -/
theorem newKDTree_order_bijection_roundtrip (pointsData : List ℚ)
    (dimension minPointsPerLeaf : ℤ) (h1 : pointsData ≠ []) (h2 : 0 < dimension)
    (h3 : (pointsData.length : ℤ) % dimension = 0) (h4 : 1 ≤ minPointsPerLeaf) :
    ∃ kd, (NewKDTree pointsData dimension minPointsPerLeaf).2 = Except.ok kd ∧
      kd.order.Perm (List.range kd.numPoints) ∧
      reconstructOriginal kd = chunkPoints dimension.toNat pointsData := by
  rcases NewKDTree_spec pointsData dimension minPointsPerLeaf h1 h2 h3 h4 with ⟨kd, hok, hwf⟩
  refine ⟨kd, hok, ?_, reconstructOriginal_eq _ _ kd hwf⟩
  have hperm := hwf.2.2.2.2.1
  rw [hwf.2.1]
  exact hperm

theorem newKDTree_order_bijection_roundtrip_witness :
    (([1, 2, 3, 4] : List ℚ) ≠ [] ∧ (0 : ℤ) < 2 ∧
      ((List.length ([1, 2, 3, 4] : List ℚ) : ℤ) % 2 = 0) ∧ (1 : ℤ) ≤ 1) ∧
    (∃ kd, (NewKDTree [1, 2, 3, 4] 2 1).2 = Except.ok kd ∧
      kd.order.Perm (List.range kd.numPoints) ∧
      reconstructOriginal kd = chunkPoints (Int.toNat 2) [1, 2, 3, 4]) :=
  ⟨⟨by simp, by norm_num, by norm_num, le_refl 1⟩,
    newKDTree_order_bijection_roundtrip [1, 2, 3, 4] 2 1 (by simp) (by norm_num)
      (by norm_num) (le_refl 1)⟩

/-- C4: every tree produced by `NewKDTree` satisfies, at every node, the
bounding-box containment (`inBox` of the node's `Min`/`Max` for every point
of its range), the split invariant (left-range coordinates on the split axis
strictly below `SplitValue`, right-range coordinates at least `SplitValue`),
and range contiguity (left child starts at the parent's start, the children
meet at the split position, the right child ends at the parent's end) —
this is exactly `GNodeWF` of the root over the tree's point list. -/
theorem newKDTree_tree_invariants (pointsData : List ℚ)
    (dimension minPointsPerLeaf : ℤ) (h1 : pointsData ≠ []) (h2 : 0 < dimension)
    (h3 : (pointsData.length : ℤ) % dimension = 0) (h4 : 1 ≤ minPointsPerLeaf) :
    ∃ kd, (NewKDTree pointsData dimension minPointsPerLeaf).2 = Except.ok kd ∧
      GNodeWF kd.points kd.root := by
  rcases NewKDTree_spec pointsData dimension minPointsPerLeaf h1 h2 h3 h4 with ⟨kd, hok, hwf⟩
  exact ⟨kd, hok, hwf.2.2.2.2.2.2.2.2.2⟩

theorem newKDTree_tree_invariants_witness :
    (([1, 2, 3, 4] : List ℚ) ≠ [] ∧ (0 : ℤ) < 2 ∧
      ((List.length ([1, 2, 3, 4] : List ℚ) : ℤ) % 2 = 0) ∧ (1 : ℤ) ≤ 1) ∧
    (∃ kd, (NewKDTree [1, 2, 3, 4] 2 1).2 = Except.ok kd ∧ GNodeWF kd.points kd.root) :=
  ⟨⟨by simp, by norm_num, by norm_num, le_refl 1⟩,
    newKDTree_tree_invariants [1, 2, 3, 4] 2 1 (by simp) (by norm_num) (by norm_num)
      (le_refl 1)⟩

/-- C5: `NewKDTree` fails, always with the `InvalidArgument` error, exactly
when the input is invalid in one of the four ways — empty buffer,
non-positive dimension, length not a multiple of the dimension, or
`minPointsPerLeaf < 1` — and succeeds on every other input. -/
theorem newKDTree_invalidArgument_iff (pointsData : List ℚ) (dimension minPointsPerLeaf : ℤ) :
    ((NewKDTree pointsData dimension minPointsPerLeaf).2
        = Except.error GeomError.invalidArgument ↔
      (pointsData = [] ∨ dimension ≤ 0 ∨ (pointsData.length : ℤ) % dimension ≠ 0 ∨
        minPointsPerLeaf < 1)) ∧
    ((∃ kd, (NewKDTree pointsData dimension minPointsPerLeaf).2 = Except.ok kd) ↔
      ¬(pointsData = [] ∨ dimension ≤ 0 ∨ (pointsData.length : ℤ) % dimension ≠ 0 ∨
        minPointsPerLeaf < 1)) := by
  by_cases hv : pointsData = [] ∨ dimension ≤ 0 ∨
      (pointsData.length : ℤ) % dimension ≠ 0 ∨ minPointsPerLeaf < 1
  · have herr := NewKDTree_error_of_invalid pointsData dimension minPointsPerLeaf hv
    refine ⟨⟨fun _ => hv, fun _ => herr⟩, ?_, ?_⟩
    · rintro ⟨t, ht⟩
      rw [herr] at ht
      cases ht
    · intro hc
      exact absurd hv hc
  · have hv' := hv
    push_neg at hv'
    obtain ⟨h1, h2, h3, h4⟩ := hv'
    rcases NewKDTree_spec pointsData dimension minPointsPerLeaf h1 h2 h3 h4 with ⟨t, ht, _⟩
    refine ⟨⟨?_, fun hc => absurd hc hv⟩, fun _ => hv, fun _ => ⟨t, ht⟩⟩
    intro herr
    rw [ht] at herr
    cases herr

/-- C8: construction never mutates the caller-supplied buffer — the
caller-visible buffer threaded through `NewKDTree` comes back unchanged (the
code clones the input and only ever writes the clone) — and both query
recursions, which receive the index by reference, return it unchanged. -/
theorem construction_and_queries_readonly :
    (∀ (pointsData : List ℚ) (dimension minPointsPerLeaf : ℤ),
      (NewKDTree pointsData dimension minPointsPerLeaf).1 = pointsData) ∧
    (∀ (kd : KDTree) (node : KDNode) (target : List (Pt × ℕ)) (radius radius2 : ℚ)
      (edges : List (ℕ × ℕ)),
      (radiusEdgesRecursiveImpl kd node target radius radius2 edges).1 = kd) ∧
    (∀ (kd : KDTree) (node : KDNode) (point : Pt) (best : ℤ × ℚ),
      (findNearestRecursive kd node point best).1 = kd) ∧
    (∀ (kd : KDTree) (point : Pt) (maxValue : ℚ),
      (findNearest kd point maxValue).1 = kd) :=
  ⟨fun _ _ _ => rfl,
    fun kd node target radius radius2 edges =>
      radiusEdgesRecursiveImpl_readonly node kd target radius radius2 edges,
    fun kd node point best => findNearestRecursive_readonly node kd point best,
    fun kd point maxValue => findNearest_readonly kd point maxValue⟩

/-- C9: in every tree produced by `NewKDTree`, every internal node's split
position lies strictly inside the node's range — the left child is
`[start, split)` and the right child `[split, end)` with
`start < split < end` — so both recursive calls of `buildNode` are on
strictly smaller non-empty ranges (`buildNode` itself is defined by
well-founded recursion on the range length). -/
theorem newKDTree_split_point_strictly_inside (pointsData : List ℚ)
    (dimension minPointsPerLeaf : ℤ) (h1 : pointsData ≠ []) (h2 : 0 < dimension)
    (h3 : (pointsData.length : ℤ) % dimension = 0) (h4 : 1 ≤ minPointsPerLeaf) :
    ∃ kd, (NewKDTree pointsData dimension minPointsPerLeaf).2 = Except.ok kd ∧
      SplitBounds kd.root := by
  rcases NewKDTree_spec pointsData dimension minPointsPerLeaf h1 h2 h3 h4 with ⟨kd, hok, hwf⟩
  exact ⟨kd, hok, hwf.2.2.2.2.2.2.2.2.2.splitBounds⟩

theorem newKDTree_split_point_strictly_inside_witness :
    (([1, 2, 3, 4] : List ℚ) ≠ [] ∧ (0 : ℤ) < 2 ∧
      ((List.length ([1, 2, 3, 4] : List ℚ) : ℤ) % 2 = 0) ∧ (1 : ℤ) ≤ 1) ∧
    (∃ kd, (NewKDTree [1, 2, 3, 4] 2 1).2 = Except.ok kd ∧ SplitBounds kd.root) :=
  ⟨⟨by simp, by norm_num, by norm_num, le_refl 1⟩,
    newKDTree_split_point_strictly_inside [1, 2, 3, 4] 2 1 (by simp) (by norm_num)
      (by norm_num) (le_refl 1)⟩

/-- C1: for every valid source set, target set and radius (with at least one
qualifying pair), the radius query succeeds and its edge list is, as a set,
exactly the brute-force set of pairs `(s, t)` with
`l2Dist2(source_s, target_t) ≤ radius²` (the code's exact comparison, which
for `radius > 0` is squared-distance form of `L2 ≤ radius`), indices in
original input order, with no pair repeated. -/
theorem radiusEdges_bruteforce_equivalence (source target : List ℚ) (D : ℕ) (radius : ℚ)
    (hD : 1 ≤ D) (hsrc : source ≠ []) (hsdvd : D ∣ source.length)
    (htdvd : D ∣ target.length) (hr : 0 < radius)
    (hpair : ∃ s, s < source.length / D ∧ ∃ t, t < target.length / D ∧
      l2Dist2 ((chunkPoints D source).getD s []) ((chunkPoints D target).getD t [])
        ≤ radius * radius) :
    ∃ edges, RadiusEdgesDone source D target D radius = Except.ok edges ∧
      (∀ pr ∈ edges, pr.1 < source.length / D ∧ pr.2 < target.length / D ∧
        l2Dist2 ((chunkPoints D source).getD pr.1 []) ((chunkPoints D target).getD pr.2 [])
          ≤ radius * radius) ∧
      (∀ s, s < source.length / D → ∀ t, t < target.length / D →
        l2Dist2 ((chunkPoints D source).getD s []) ((chunkPoints D target).getD t [])
          ≤ radius * radius → (s, t) ∈ edges) ∧
      edges.Nodup :=
  RadiusEdgesDone_spec source target D radius hD hsrc hsdvd htdvd (le_of_lt hr) hpair

theorem radiusEdges_bruteforce_equivalence_witness :
    ((0 : ℚ) < 1 ∧ ∃ s, s < List.length ([0, 3] : List ℚ) / 1 ∧
      ∃ t, t < List.length ([0] : List ℚ) / 1 ∧
        l2Dist2 ((chunkPoints 1 [0, 3]).getD s []) ((chunkPoints 1 [0]).getD t [])
          ≤ 1 * 1) ∧
    (∃ edges, RadiusEdgesDone [0, 3] 1 [0] 1 1 = Except.ok edges ∧
      (∀ pr ∈ edges, pr.1 < List.length ([0, 3] : List ℚ) / 1 ∧
        pr.2 < List.length ([0] : List ℚ) / 1 ∧
        l2Dist2 ((chunkPoints 1 [0, 3]).getD pr.1 []) ((chunkPoints 1 [0]).getD pr.2 [])
          ≤ 1 * 1) ∧
      (∀ s, s < List.length ([0, 3] : List ℚ) / 1 → ∀ t, t < List.length ([0] : List ℚ) / 1 →
        l2Dist2 ((chunkPoints 1 [0, 3]).getD s []) ((chunkPoints 1 [0]).getD t [])
          ≤ 1 * 1 → (s, t) ∈ edges) ∧
      edges.Nodup) := by
  have hpair : ∃ s, s < List.length ([0, 3] : List ℚ) / 1 ∧
      ∃ t, t < List.length ([0] : List ℚ) / 1 ∧
        l2Dist2 ((chunkPoints 1 [0, 3]).getD s []) ((chunkPoints 1 [0]).getD t [])
          ≤ 1 * 1 := by
    refine ⟨0, by norm_num, 0, by norm_num, ?_⟩
    norm_num [chunkPoints, List.range_succ, l2Dist2]
  exact ⟨⟨by norm_num, hpair⟩,
    radiusEdges_bruteforce_equivalence [0, 3] [0] 1 1 (le_refl 1) (by simp) (by norm_num)
      (by norm_num) (by norm_num) hpair⟩

/-- C2 counterexample: the claim fails as stated.  With a single source point
at coordinate `2^600` and a single target point at the origin, the squared
distance `2^1200` is not below the initial best `math.MaxFloat64`
(`maxFloat64 = 2^1024 - 2^971`; in the Go code the `float64` square overflows
to `+Inf`), so `findNearest` never assigns a target and the Go code panics on
`kd.Order[-1]` — embedded as the edge `(0, none)` — instead of returning the
brute-force arg-min target index `0`. -/
theorem nearestEdges_maxfloat_counterexample :
    nearestEdgesImpl [(2 : ℚ) ^ 600] [0] 1 maxFloat64 = Except.ok [(0, none)] ∧
    nearestEdgesImpl [(2 : ℚ) ^ 600] [0] 1 maxFloat64 ≠ Except.ok [(0, some 0)] := by
  have hrec : (findNearestRecursive ⟨[[0]], 1, 1, [0], KDNode.leaf [0] [0] 0 1⟩
      (KDNode.leaf [0] [0] 0 1) [(2 : ℚ) ^ 600] (-1, maxFloat64)).2 = (-1, maxFloat64) := by
    rw [findNearestRecursive]
    norm_num [leafScan, List.range', l2Dist2, maxFloat64]
  have hfn : (findNearest ⟨[[0]], 1, 1, [0], KDNode.leaf [0] [0] 0 1⟩
      [(2 : ℚ) ^ 600] maxFloat64).2 = none := by
    rw [findNearest]
    simp only [hrec]
    norm_num [findNearestRecursive_readonly]
  have hmain : nearestEdgesImpl [(2 : ℚ) ^ 600] [0] 1 maxFloat64
      = Except.ok [(0, none)] := by
    rw [nearestEdgesImpl, newKDTree_singlePoint]
    simp only [List.length_cons, List.length_nil]
    norm_num at hfn
    norm_num [List.range_succ, hfn]
  refine ⟨hmain, ?_⟩
  rw [hmain]
  intro h
  cases h

/-- C2 (amended): for every non-empty target set of matching dimension, and
for every source point that has at least one target whose squared distance is
strictly below the initial best bound (`math.MaxFloat64` in the Go code),
`nearestEdges` returns exactly one edge per source point: edge `i` has source
index `i` and a target index that is valid and attains the brute-force
minimum distance (exact ties resolved deterministically by the fixed tree
visitation order). -/
theorem nearestEdges_argmin_with_reachable_bound (source target : List ℚ) (D : ℕ)
    (maxValue : ℚ) (hD : 1 ≤ D) (htgt : target ≠ []) (htdvd : D ∣ target.length)
    (hreach : ∀ i, i < source.length / D →
      ∃ j, j < target.length / D ∧
        l2Dist2 ((source.drop (i * D)).take D) ((chunkPoints D target).getD j [])
          < maxValue) :
    ∃ es, nearestEdgesImpl source target D maxValue = Except.ok es ∧
      es.length = source.length / D ∧
      ∀ i, i < source.length / D →
        (es.getD i (0, none)).1 = i ∧
        ∃ j, (es.getD i (0, none)).2 = some j ∧ j < target.length / D ∧
          ∀ k, k < target.length / D →
            l2Dist2 ((source.drop (i * D)).take D) ((chunkPoints D target).getD j [])
              ≤ l2Dist2 ((source.drop (i * D)).take D) ((chunkPoints D target).getD k []) :=
  nearestEdgesImpl_spec source target D maxValue hD htgt htdvd hreach

theorem nearestEdges_argmin_witness :
    (([0, 3] : List ℚ) ≠ [] ∧
      (∀ i, i < List.length ([5] : List ℚ) / 1 →
        ∃ j, j < List.length ([0, 3] : List ℚ) / 1 ∧
          l2Dist2 ((([5] : List ℚ).drop (i * 1)).take 1) ((chunkPoints 1 [0, 3]).getD j [])
            < maxFloat64)) ∧
    (∃ es, nearestEdgesImpl [5] [0, 3] 1 maxFloat64 = Except.ok es ∧
      es.length = List.length ([5] : List ℚ) / 1 ∧
      ∀ i, i < List.length ([5] : List ℚ) / 1 →
        (es.getD i (0, none)).1 = i ∧
        ∃ j, (es.getD i (0, none)).2 = some j ∧ j < List.length ([0, 3] : List ℚ) / 1 ∧
          ∀ k, k < List.length ([0, 3] : List ℚ) / 1 →
            l2Dist2 ((([5] : List ℚ).drop (i * 1)).take 1) ((chunkPoints 1 [0, 3]).getD j [])
              ≤ l2Dist2 ((([5] : List ℚ).drop (i * 1)).take 1)
                  ((chunkPoints 1 [0, 3]).getD k [])) := by
  have hreach : ∀ i, i < List.length ([5] : List ℚ) / 1 →
      ∃ j, j < List.length ([0, 3] : List ℚ) / 1 ∧
        l2Dist2 ((([5] : List ℚ).drop (i * 1)).take 1) ((chunkPoints 1 [0, 3]).getD j [])
          < maxFloat64 := by
    intro i hi
    have hi0 : i = 0 := by
      norm_num at hi
      omega
    subst hi0
    refine ⟨0, by norm_num, ?_⟩
    norm_num [chunkPoints, List.range_succ, l2Dist2, maxFloat64]
  exact ⟨⟨by simp, hreach⟩,
    nearestEdges_argmin_with_reachable_bound [5] [0, 3] 1 maxFloat64 (le_refl 1) (by simp)
      (by norm_num) hreach⟩

/-- C6 counterexample: the claim fails as stated.  `Done` performs no radius
validation at all: with a source point coinciding with a target point and
`radius = 0 ≤ 0`, the query runs and succeeds with that edge rather than
failing with `InvalidArgument`. -/
theorem radiusEdges_radius_zero_counterexample :
    (0 : ℚ) ≤ 0 ∧ RadiusEdgesDone [0] 1 [0] 1 0 = Except.ok [(0, 0)] ∧
    RadiusEdgesDone [0] 1 [0] 1 0 ≠ Except.error GeomError.invalidArgument := by
  have hmain : RadiusEdgesDone [0] 1 [0] 1 0 = Except.ok [(0, 0)] := by
    rw [RadiusEdgesDone, radiusEdgesImpl, newKDTree_singlePoint]
    have hz : ((chunkPoints 1 [0]).zip (List.range (List.length ([0] : List ℚ) / 1)))
        = [([(0 : ℚ)], 0)] := by
      norm_num [chunkPoints, List.range_succ, List.zip, List.zipWith]
    norm_num [hz]
    rw [radiusEdgesRecursiveImpl]
    norm_num [radiusIntersectWithBoundingBox, closestInBox, l2Dist2, KDNode.maxC,
      KDNode.minC, List.filter, List.range', List.filterMap, List.flatMap, List.zipWith]
  refine ⟨le_refl 0, hmain, ?_⟩
  rw [hmain]
  intro h
  cases h

/-- C6 (amended): `radiusEdges` applies no validation to the radius: for any
`radius ≤ 0` the computation proceeds on valid inputs exactly as for any
other radius, and the outcome is `NoEdgesFound` when the computed edge list
is empty and a non-empty success otherwise (for example, coincident points at
`radius = 0` produce an edge); `InvalidArgument` is never raised for the
radius. -/
theorem radiusEdges_no_radius_validation (source target : List ℚ) (D : ℕ) (radius : ℚ)
    (hD : 1 ≤ D) (hsrc : source ≠ []) (hsdvd : D ∣ source.length) (hrad : radius ≤ 0) :
    (∃ edges, RadiusEdgesDone source D target D radius = Except.ok edges ∧ edges ≠ []) ∨
      RadiusEdgesDone source D target D radius = Except.error GeomError.noEdgesFound := by
  rcases radiusEdgesImpl_ok source target D radius hD hsrc hsdvd with ⟨edges, himpl⟩
  rw [RadiusEdgesDone, if_neg (by omega), himpl]
  by_cases hlen : edges.length = 0
  · right
    simp only [hlen, if_true]
  · left
    refine ⟨edges, ?_, ?_⟩
    · simp only [hlen, if_false]
    · intro h
      rw [h] at hlen
      simp at hlen

theorem radiusEdges_no_radius_validation_witness :
    (([0] : List ℚ) ≠ [] ∧ (0 : ℚ) ≤ 0) ∧
    ((∃ edges, RadiusEdgesDone [0] 1 [0] 1 0 = Except.ok edges ∧ edges ≠ []) ∨
      RadiusEdgesDone [0] 1 [0] 1 0 = Except.error GeomError.noEdgesFound) :=
  ⟨⟨by simp, le_refl 0⟩,
    radiusEdges_no_radius_validation [0] [0] 1 0 (le_refl 1) (by simp) (by norm_num)
      (le_refl 0)⟩

/-- C7: on valid inputs for which no (source, target) pair lies within the
radius, the radius query returns the `NoEdgesFound` error; and in general an
empty edge list is never reported as a success — every `ok` result is
non-empty. -/
theorem radiusEdges_empty_result_is_error (source target : List ℚ) (D : ℕ) (radius : ℚ)
    (hD : 1 ≤ D) (hsrc : source ≠ []) (hsdvd : D ∣ source.length)
    (htdvd : D ∣ target.length) (hr : 0 < radius)
    (hnone : ∀ s, s < source.length / D → ∀ t, t < target.length / D →
      ¬ l2Dist2 ((chunkPoints D source).getD s []) ((chunkPoints D target).getD t [])
        ≤ radius * radius) :
    RadiusEdgesDone source D target D radius = Except.error GeomError.noEdgesFound ∧
    (∀ (src : List ℚ) (sd : ℕ) (tgt : List ℚ) (td : ℕ) (rad : ℚ) (edges : List (ℕ × ℕ)),
      RadiusEdgesDone src sd tgt td rad = Except.ok edges → edges ≠ []) :=
  ⟨RadiusEdgesDone_noEdges source target D radius hD hsrc hsdvd htdvd (le_of_lt hr) hnone,
    fun src sd tgt td rad edges h => RadiusEdgesDone_ok_ne_nil src sd tgt td rad edges h⟩

theorem radiusEdges_empty_result_is_error_witness :
    ((0 : ℚ) < 1 ∧ (∀ s, s < List.length ([0] : List ℚ) / 1 →
      ∀ t, t < List.length ([5] : List ℚ) / 1 →
        ¬ l2Dist2 ((chunkPoints 1 [0]).getD s []) ((chunkPoints 1 [5]).getD t [])
          ≤ 1 * 1)) ∧
    (RadiusEdgesDone [0] 1 [5] 1 1 = Except.error GeomError.noEdgesFound ∧
      (∀ (src : List ℚ) (sd : ℕ) (tgt : List ℚ) (td : ℕ) (rad : ℚ)
        (edges : List (ℕ × ℕ)),
        RadiusEdgesDone src sd tgt td rad = Except.ok edges → edges ≠ [])) := by
  have hnone : ∀ s, s < List.length ([0] : List ℚ) / 1 →
      ∀ t, t < List.length ([5] : List ℚ) / 1 →
        ¬ l2Dist2 ((chunkPoints 1 [0]).getD s []) ((chunkPoints 1 [5]).getD t [])
          ≤ 1 * 1 := by
    intro s hs t ht
    have hs0 : s = 0 := by
      norm_num at hs
      omega
    have ht0 : t = 0 := by
      norm_num at ht
      omega
    subst hs0
    subst ht0
    norm_num [chunkPoints, List.range_succ, l2Dist2]
  exact ⟨⟨by norm_num, hnone⟩,
    radiusEdges_empty_result_is_error [0] [5] 1 1 (le_refl 1) (by simp) (by norm_num)
      (by norm_num) (by norm_num) hnone⟩

/-- C10: for a tree built over a non-empty valid target set, whenever some
target point's squared distance to the query point is strictly below the
initial best bound (the claim's finite-coordinate condition), the best-match
index after the root recursion is a value in `[0, NumPoints)` — so the final
`kd.Order[best.index]` lookup is in bounds and `findNearest` yields a result
(with the initial `-1` the lookup would be out of bounds, embedded as
`none`). -/
theorem findNearest_best_index_in_bounds (target : List ℚ) (D : ℕ) (point : Pt)
    (maxValue : ℚ) (hD : 1 ≤ D) (htgt : target ≠ []) (htdvd : D ∣ target.length)
    (hq : point.length = D)
    (hreach : ∃ j, j < target.length / D ∧
      l2Dist2 point ((chunkPoints D target).getD j []) < maxValue) :
    ∃ kd, (NewKDTree target (D : ℤ) 16).2 = Except.ok kd ∧
      0 ≤ ((findNearestRecursive kd kd.root point (-1, maxValue)).2).1 ∧
      ((findNearestRecursive kd kd.root point (-1, maxValue)).2).1.toNat < kd.numPoints ∧
      ((findNearest kd point maxValue).2).isSome = true := by
  have hD0 : D ≠ 0 := by omega
  have hmod : (target.length : ℤ) % (D : ℤ) = 0 := by
    rcases htdvd with ⟨k, hk⟩
    simp [hk]
  rcases NewKDTree_spec target (D : ℤ) 16 htgt (by omega) hmod (by omega) with ⟨kd, hok, hwf⟩
  rw [Int.toNat_natCast] at hwf
  have hTlen : (chunkPoints D target).length = target.length / D :=
    chunkPoints_length D target hD0 htdvd
  have hreach' : ∃ j, j < (chunkPoints D target).length ∧
      l2Dist2 point ((chunkPoints D target).getD j []) < maxValue := by
    rcases hreach with ⟨j, hj, hjd⟩
    exact ⟨j, by omega, hjd⟩
  rcases findNearestRoot_spec kd D (chunkPoints D target) point maxValue hwf hq hreach'
    with ⟨i, hiN, hfst, hsome, _, _⟩
  refine ⟨kd, hok, ?_, ?_, ?_⟩
  · rw [hfst]
    exact Int.natCast_nonneg i
  · rw [hfst, Int.toNat_natCast]
    rw [hwf.2.1]
    omega
  · rw [hsome]
    rfl

theorem findNearest_best_index_in_bounds_witness :
    (([5] : List ℚ) ≠ [] ∧ ([(0 : ℚ)] : Pt).length = 1 ∧
      (∃ j, j < List.length ([5] : List ℚ) / 1 ∧
        l2Dist2 [(0 : ℚ)] ((chunkPoints 1 [5]).getD j []) < maxFloat64)) ∧
    (∃ kd, (NewKDTree [5] ((1 : ℕ) : ℤ) 16).2 = Except.ok kd ∧
      0 ≤ ((findNearestRecursive kd kd.root [(0 : ℚ)] (-1, maxFloat64)).2).1 ∧
      ((findNearestRecursive kd kd.root [(0 : ℚ)] (-1, maxFloat64)).2).1.toNat
        < kd.numPoints ∧
      ((findNearest kd [(0 : ℚ)] maxFloat64).2).isSome = true) := by
  have hreach : ∃ j, j < List.length ([5] : List ℚ) / 1 ∧
      l2Dist2 [(0 : ℚ)] ((chunkPoints 1 [5]).getD j []) < maxFloat64 := by
    refine ⟨0, by norm_num, ?_⟩
    norm_num [chunkPoints, List.range_succ, l2Dist2, maxFloat64]
  exact ⟨⟨by simp, rfl, hreach⟩,
    findNearest_best_index_in_bounds [5] 1 [(0 : ℚ)] maxFloat64 (le_refl 1) (by simp)
      (by norm_num) rfl hreach⟩
